import Mathlib

/-!
DHT11 single-wire read routine.

A shallow embedding of `src/src/main.c` (`delay_us`, `set_output`, `set_input`,
`DHT11_Read`) together with a mock of the hardware it talks to.

Modelling conventions.

* Time is counted in ticks of one microsecond.  Straight-line code takes no
  time; every unsuccessful poll of a busy-wait loop (timer or pin) costs one
  tick, so the timer counter advances by one per poll.
* The external wire is a waveform `line : Nat → Bool` (level at tick `t`).
  While the pin is an output, reading it gives back the driven level.
* `while` loops whose exit depends on the hardware take a `fuel` argument, the
  largest number of polls one loop may make.  Running out of fuel is reported
  as `Except.error` together with the place and the state of the spin.
* Every pin and timer action is recorded with its time stamp in `State.log`
  (newest first), every write to `data[]` in `State.mem` (newest first).
-/

namespace DHT11

/-! ## Data model -/

/-- Electrical configuration of the pin: `GPIO_MODE_OUTPUT_PP` as written by
`set_output`, `GPIO_MODE_INPUT` with `GPIO_NOPULL` as written by `set_input`. -/
inductive PinMode
  | output_pp
  | input_nopull
  deriving DecidableEq, Repr

/-- The three places of `DHT11_Read` that call `HAL_GPIO_ReadPin`
(lines 48, 50 and 52). -/
inductive Site
  | wait_low
  | sample
  | wait_high
  deriving DecidableEq, Repr

/-- Pin and timer actions recorded by the mock. -/
inductive Event
  | set_output
  | set_input
  | write (lvl : Bool)
  | hal_delay (ms : Nat)
  | delay_us (us : Nat)
  | read (site : Site) (lvl : Bool)
  deriving DecidableEq, Repr

/-- Writes to the global buffer `data[5]`: `data[j] = v` (line 45) and
`data[j] |= (1 << shift)` (line 51) with the mask that was used. -/
inductive MemOp
  | assign (j : Nat) (v : Nat)
  | or_assign (j : Nat) (shift : Int) (mask : Nat)
  deriving DecidableEq, Repr

/-- Machine state seen by the routine. -/
structure State where
  now : Nat
  mode : PinMode
  odr : Bool
  data : List Nat
  log : List (Nat × Event)
  mem : List MemOp
  deriving Repr

/-- The mock hardware: the waveform on the wire and the number of ticks by
which `HAL_Delay` overshoots the requested milliseconds. -/
structure Mock where
  line : Nat → Bool
  hal_extra : Nat

/-- Where a run that ran out of fuel is spinning. -/
inductive Loc
  | delay (us : Nat)
  | wait_low (j i : Nat)
  | wait_high (j i : Nat)
  deriving DecidableEq, Repr

/-- An outcome without result: the place of the spin that ran out of fuel and
the state it was in. -/
abbrev Stuck := Loc × State

/-! ## The routines of `main.c` -/

/-- The loop `while (__HAL_TIM_GET_COUNTER(&htim1) < us);` of line 11.  `tick`
is what one poll interval does to the counter, `cnt` the counter value the
next poll will see, `waited` the number of unsuccessful polls so far. -/
def delay_us_spin (tick : Nat → Nat) (us : Nat) : Nat → Nat → Nat → Option (Nat × Nat)
  | 0, _, _ => none
  | fuel + 1, cnt, waited =>
    if cnt < us then delay_us_spin tick us fuel (tick cnt) (waited + 1)
    else some (cnt, waited)

/-- The routine `delay_us(us)`: `__HAL_TIM_SET_COUNTER(&htim1, 0)` and then the
spin.  Returns the counter value at exit and the number of ticks waited. -/
def delay_us (tick : Nat → Nat) (us : Nat) (fuel : Nat) : Option (Nat × Nat) :=
  delay_us_spin tick us fuel 0 0

/-- The mock timer: a 16-bit counter that advances by one per poll. -/
def tim_tick (cnt : Nat) : Nat := (cnt + 1) % 65536

/-- The routine `set_output` (lines 14-21). -/
def set_output (s : State) : State :=
  { s with mode := .output_pp, log := (s.now, .set_output) :: s.log }

/-- The routine `set_input` (lines 23-30). -/
def set_input (s : State) : State :=
  { s with mode := .input_nopull, log := (s.now, .set_input) :: s.log }

/-- The call `HAL_GPIO_WritePin(DHT_PORT, DHT_PIN, lvl)`. -/
def HAL_GPIO_WritePin (lvl : Bool) (s : State) : State :=
  { s with odr := lvl, log := (s.now, .write lvl) :: s.log }

/-- The level `HAL_GPIO_ReadPin` returns in state `s`. -/
def gpio_level (hw : Mock) (s : State) : Bool :=
  match s.mode with
  | .output_pp => s.odr
  | .input_nopull => hw.line s.now

/-- The call `HAL_GPIO_ReadPin(DHT_PORT, DHT_PIN)` at `site`: the level and
the state with the read recorded. -/
def HAL_GPIO_ReadPin (hw : Mock) (site : Site) (s : State) : Bool × State :=
  (gpio_level hw s, { s with log := (s.now, .read site (gpio_level hw s)) :: s.log })

/-- The call `HAL_Delay(ms)`: at least `ms` milliseconds pass. -/
def HAL_Delay (hw : Mock) (ms : Nat) (s : State) : State :=
  { s with now := s.now + 1000 * ms + hw.hal_extra, log := (s.now, .hal_delay ms) :: s.log }

/-- A call of `delay_us(us)` from `DHT11_Read`, on the mock timer; the timer
loop may poll for one full period of the 16-bit counter. -/
def delay_us_call (us : Nat) (s : State) : Except Stuck State :=
  match delay_us tim_tick us 65536 with
  | some (_, waited) =>
    .ok { s with now := s.now + waited, log := (s.now, .delay_us us) :: s.log }
  | none => .error (.delay us, s)

/-- One unsuccessful poll of a pin spin: a tick passes. -/
def spin_tick (s : State) : State := { s with now := s.now + 1 }

/-- Line 48: `while (!HAL_GPIO_ReadPin(DHT_PORT, DHT_PIN));`. -/
def wait_while_low (hw : Mock) (j i : Nat) : Nat → State → Except Stuck State
  | 0, s => .error (.wait_low j i, s)
  | fuel + 1, s =>
    let r := HAL_GPIO_ReadPin hw .wait_low s
    if !r.1 then wait_while_low hw j i fuel (spin_tick r.2) else .ok r.2

/-- Line 52: `while (HAL_GPIO_ReadPin(DHT_PORT, DHT_PIN));`. -/
def wait_while_high (hw : Mock) (j i : Nat) : Nat → State → Except Stuck State
  | 0, s => .error (.wait_high j i, s)
  | fuel + 1, s =>
    let r := HAL_GPIO_ReadPin hw .wait_high s
    if r.1 then wait_while_high hw j i fuel (spin_tick r.2) else .ok r.2

/-- The shift amount `7 - i` of line 51, computed in `int` as C does. -/
def bit_shift (i : Nat) : Int := 7 - (i : Int)

/-- The mask `1 << (7 - i)` of line 51. -/
def bit_mask (i : Nat) : Nat := 1 <<< (bit_shift i).toNat

/-- Line 45: `data[j] = 0;`. -/
def clear_byte (j : Nat) (s : State) : State :=
  { s with data := s.data.set j 0, mem := .assign j 0 :: s.mem }

/-- Line 51: `data[j] |= (1 << (7 - i));`, the result converted to `uint8_t`. -/
def or_bit (j i : Nat) (s : State) : State :=
  { s with data := s.data.set j ((s.data.getD j 0 ||| bit_mask i) % 256),
           mem := .or_assign j (bit_shift i) (bit_mask i) :: s.mem }

/-- Lines 48-52: the body of the inner loop, one bit. -/
def sample_bit (hw : Mock) (fuel : Nat) (j i : Nat) (s : State) : Except Stuck State :=
  do
    let s1 ← wait_while_low hw j i fuel s
    let s2 ← delay_us_call 40 s1
    let r := HAL_GPIO_ReadPin hw .sample s2
    let s3 := if r.1 then or_bit j i r.2 else r.2
    wait_while_high hw j i fuel s3

/-- Lines 46-53: `for (i = 0; i < 8; i++)` over the bit body. -/
def bit_loop (hw : Mock) (fuel : Nat) (j : Nat) (s : State) : Except Stuck State :=
  (List.range 8).foldlM (fun st i => sample_bit hw fuel j i st) s

/-- Lines 45-53: the body of the outer loop, one byte. -/
def read_byte (hw : Mock) (fuel : Nat) (j : Nat) (s : State) : Except Stuck State :=
  bit_loop hw fuel j (clear_byte j s)

/-- Lines 43-54: `for (j = 0; j < 5; j++)` over the byte body. -/
def sample_loop (hw : Mock) (fuel : Nat) (s : State) : Except Stuck State :=
  (List.range 5).foldlM (fun st j => read_byte hw fuel j st) s

/-- Lines 36-41: the start signal and the switch to input mode. -/
def start_signal (hw : Mock) (s : State) : Except Stuck State :=
  do
    let s1 := set_output s
    let s2 := HAL_GPIO_WritePin false s1
    let s3 := HAL_Delay hw 18 s2
    let s4 := HAL_GPIO_WritePin true s3
    let s5 ← delay_us_call 30 s4
    pure (set_input s5)

/-- The routine `DHT11_Read`: the value returned (line 55) and the final state. -/
def DHT11_Read (hw : Mock) (fuel : Nat) (s : State) : Except Stuck (Nat × State) :=
  do
    let s1 ← start_signal hw s
    let s2 ← sample_loop hw fuel s1
    pure (1, s2)

/-! ## What is read off a run -/

/-- The state in which a run ended, or in which it is still spinning. -/
def end_state : Except Stuck (Nat × State) → State
  | .ok (_, s) => s
  | .error (_, s) => s

/-- The state carried by the outcome of a part of the routine. -/
def res_state : Except Stuck State → State
  | .ok s => s
  | .error (_, s) => s

/-- The levels read at the sample point (line 50), oldest first. -/
def samples (log : List (Nat × Event)) : List Bool :=
  log.reverse.filterMap fun e =>
    match e.2 with
    | .read .sample lvl => some lvl
    | _ => none

/-- The ticks at which the sample-point reads (line 50) were made, oldest
first. -/
def sample_times (log : List (Nat × Event)) : List Nat :=
  log.reverse.filterMap fun e =>
    match e.2 with
    | .read .sample _ => some e.1
    | _ => none

/-- The recorded changes of the pin's mode, oldest first. -/
def mode_changes (log : List (Nat × Event)) : List Event :=
  (log.reverse.map Prod.snd).filter fun e =>
    decide (e = Event.set_output ∨ e = Event.set_input)

/-- A state right after reset: time zero, pin floating, nothing recorded. -/
def boot (d : List Nat) : State :=
  { now := 0, mode := .input_nopull, odr := false, data := d, log := [], mem := [] }

/-- The tick at which a run of `DHT11_Read` entered in state `s` switches the
pin to input; the mock's pulse trains are played from this tick on. -/
def input_time (hw : Mock) (s : State) : Nat := s.now + 1000 * 18 + hw.hal_extra + 30

/-- The six recorded actions of lines 36-41, oldest first, for a run entered
at tick `t` on a mock whose `HAL_Delay` overshoots by `extra` ticks. -/
def start_events (t extra : Nat) : List (Nat × Event) :=
  [(t, Event.set_output), (t, Event.write false), (t, Event.hal_delay 18),
   (t + 1000 * 18 + extra, Event.write true), (t + 1000 * 18 + extra, Event.delay_us 30),
   (t + 1000 * 18 + extra + 30, Event.set_input)]

/-- The state in which lines 36-41 leave the machine. -/
def started (hw : Mock) (s : State) : State :=
  { s with now := input_time hw s, mode := PinMode.input_nopull, odr := true,
           log := (start_events s.now hw.hal_extra).reverse ++ s.log }

/-! ## The mock's waveforms and the packing of bits -/

/-- Waveform of a train of pulses given as (low ticks, high ticks) pairs: low
for `lo`, high for `hi`, and so on; low for ever after the last pulse. -/
def wave : List (Nat × Nat) → Nat → Bool
  | [], _ => false
  | (lo, hi) :: rest, t =>
    if t < lo then false
    else if t < lo + hi then true
    else wave rest (t - (lo + hi))

/-- The bit a pulse encodes: one when the high part outlasts the 40 ticks
between rising edge and sample point. -/
def bits_of (ps : List (Nat × Nat)) : List Bool := ps.map fun p => decide (40 < p.2)

/-- Every pulse has a low part and a high part. -/
def Pulses (ps : List (Nat × Nat)) : Prop := ∀ p ∈ ps, 1 ≤ p.1 ∧ 1 ≤ p.2

/-- The timing the decoder relies on: the sample point of a short pulse falls
inside the low part of the next pulse, and pulses do not merge. -/
def well_timed : List (Nat × Nat) → Bool
  | [] => true
  | (_, hi) :: rest =>
    decide (1 ≤ hi) &&
    (match rest with
      | [] => true
      | (lo2, _) :: _ => decide (1 ≤ lo2) && decide (40 < hi + lo2)) &&
    well_timed rest

/-- Most-significant-bit-first value of a list of bits. -/
def pack_byte (bs : List Bool) : Nat := bs.foldl (fun acc b => 2 * acc + b.toNat) 0

/-- Byte `j` of a bit stream: bits `8 * j` to `8 * j + 7`, first bit on top. -/
def pack_at (bs : List Bool) (j : Nat) : Nat :=
  pack_byte ((List.range 8).map fun i => bs.getD (8 * j + i) false)

/-- The five bytes of a 40-bit stream. -/
def pack (bs : List Bool) : List Nat := (List.range 5).map (pack_at bs)

/-- The checksum comparison of the DHT11 protocol, which the source never
makes: byte 4 against the sum of bytes 0 to 3 modulo 256. -/
def checksum_ok (d : List Nat) : Bool :=
  decide (d.getD 4 0 = (d.getD 0 0 + d.getD 1 0 + d.getD 2 0 + d.getD 3 0) % 256)

/-- The 40-pulse train used in the examples: a DHT11 frame with 50 us low
parts, 27 us high parts for zeros and 70 us for ones, carrying the bytes
55, 0, 24, 0 and then 99 (which is not their sum). -/
def demo_pulses : List (Nat × Nat) :=
  ([55, 0, 24, 0, 99] : List Nat).foldr
    (fun b acc => ((List.range 8).map fun i => (50, if Nat.testBit b (7 - i) then 70 else 27)) ++ acc) []

/-- The mock that plays `demo_pulses` from the moment the pin becomes an input,
with a `HAL_Delay` that is exact. -/
def demo_mock : Mock := { line := fun t => wave demo_pulses (t - 18030), hal_extra := 0 }

/-- A pulse train that opens with the sensor's acknowledgment (80 us low, 80 us
high) and then carries the demo frame. -/
def demo_ack_pulses : List (Nat × Nat) := (80, 80) :: demo_pulses

/-- The mock that plays `demo_ack_pulses` from the moment the pin becomes an
input. -/
def demo_ack_mock : Mock := { line := fun t => wave demo_ack_pulses (t - 18030), hal_extra := 0 }

/-! ## Notions used in the proofs -/

/-- Both pin spins: poll at `site` for as long as the level read is `lvl`. -/
def spin (hw : Mock) (site : Site) (lvl : Bool) (loc : Loc) : Nat → State → Except Stuck State
  | 0, s => .error (loc, s)
  | fuel + 1, s =>
    if gpio_level hw s = lvl then
      spin hw site lvl loc fuel (spin_tick (HAL_GPIO_ReadPin hw site s).2)
    else .ok (HAL_GPIO_ReadPin hw site s).2

/-- A write to the buffer as the source performs it: inside `data[5]`, and
either a clear or an or with a one-bit mask `1 << shift`, `0 ≤ shift ≤ 7`. -/
def MemOk : MemOp → Prop
  | .assign j v => j < 5 ∧ v = 0
  | .or_assign j shift mask =>
    j < 5 ∧ 0 ≤ shift ∧ shift ≤ 7 ∧ mask = 1 <<< shift.toNat ∧
      mask ∈ [128, 64, 32, 16, 8, 4, 2, 1] ∧ mask < 256

/-- A recorded action of the sampling phase: a pin read or the 40 us delay,
not earlier than `t0`. -/
def QuietEvent (t0 : Nat) (e : Nat × Event) : Prop :=
  t0 ≤ e.1 ∧ (e.2 = Event.delay_us 40 ∨ ∃ site lvl, e.2 = Event.read site lvl)

/-- The state `s2` is reached from `s1` by steps of the sampling phase. -/
structure Ext (s1 s2 : State) : Prop where
  mode : s2.mode = s1.mode
  odr : s2.odr = s1.odr
  now : s1.now ≤ s2.now
  len : s2.data.length = s1.data.length
  log : ∃ evs, s2.log = evs ++ s1.log ∧ ∀ e ∈ evs, QuietEvent s1.now e
  mem : ∃ ops, s2.mem = ops ++ s1.mem ∧ ∀ op ∈ ops, MemOk op

/-- The steps of lines 43-54 in execution order. -/
inductive Op
  | clear (j : Nat)
  | bit (j i : Nat)
  deriving DecidableEq, Repr

/-- One step of the unrolled loop. -/
def step (hw : Mock) (fuel : Nat) (s : State) : Op → Except Stuck State
  | .clear j => .ok (clear_byte j s)
  | .bit j i => sample_bit hw fuel j i s

/-- The steps of one pass of the outer loop. -/
def byte_ops (j : Nat) : List Op := Op.clear j :: (List.range 8).map (Op.bit j)

/-- The steps of the whole sampling phase. -/
def prog : List Op := (List.range 5).foldr (fun j acc => byte_ops j ++ acc) []

/-- Number of bit steps in a list of steps. -/
def nbits : List Op → Nat
  | [] => 0
  | .clear _ :: ops => nbits ops
  | .bit _ _ :: ops => nbits ops + 1

/-- The indices of a step lie inside the loops' ranges. -/
def op_ok : Op → Bool
  | .clear j => decide (j < 5)
  | .bit j i => decide (j < 5) && decide (i < 8)

/-- The offset `c` into the pulse train lies in the low part of its first pulse
or on its rising edge. -/
def HeadOk (c : Nat) : List (Nat × Nat) → Prop
  | [] => True
  | (lo, _) :: _ => c ≤ lo

/-- The offset `c` lies strictly inside the low part of the first pulse. -/
def HeadLt (c : Nat) : List (Nat × Nat) → Prop
  | [] => True
  | (lo, _) :: _ => c < lo

/-- The pin is an input and the line, from the present tick of `s` on, is the
pulse train `ps` entered at offset `c`. -/
def Sync (hw : Mock) (s : State) (ps : List (Nat × Nat)) (c : Nat) : Prop :=
  s.mode = PinMode.input_nopull ∧ ∀ x, hw.line (s.now + x) = wave ps (c + x)

/-- What the eight passes of line 51 make of a byte. -/
def or_fold (acc : Nat) (l : List (Nat × Bool)) : Nat :=
  l.foldl (fun a p => if p.2 then (a ||| bit_mask p.1) % 256 else a) acc

/-- Two states that agree on everything but the buffer. -/
def same_but_data (a b : State) : Prop :=
  a.now = b.now ∧ a.mode = b.mode ∧ a.odr = b.odr ∧ a.log = b.log ∧ a.mem = b.mem

/-- Two outcomes of the same kind, at the same place, in states that agree on
everything but the buffer. -/
def Rel : Except Stuck State → Except Stuck State → Prop
  | .ok a, .ok b => same_but_data a b
  | .error (l1, a), .error (l2, b) => l1 = l2 ∧ same_but_data a b
  | _, _ => False

/-- A result, once reached, is kept when more fuel is given. -/
def Mono (f : Nat → Except Stuck State) : Prop :=
  ∀ fuel a, f fuel = Except.ok a → f (fuel + 1) = Except.ok a

/-- The spin at `loc` (one of the 40 + 40 pin spins of the loop nest), entered
at tick `t`, never sees the level change. -/
def NeverChanges (hw : Mock) : Loc → Nat → Prop
  | .wait_low j i, t => j < 5 ∧ i < 8 ∧ ∀ k, hw.line (t + k) = false
  | .wait_high j i, t => j < 5 ∧ i < 8 ∧ ∀ k, hw.line (t + k) = true
  | .delay _, _ => False

/-- From some fuel on, the computation is out of fuel in one and the same
spin, which never sees the level change. -/
def Hangs (hw : Mock) (f : Nat → Except Stuck State) : Prop :=
  ∃ loc t F, NeverChanges hw loc t ∧
    ∀ fuel, F ≤ fuel → ∃ st, f fuel = Except.error (loc, st) ∧ st.now = t + fuel

/-- Either the computation returns, with the pin an input, or it hangs. -/
def Dich (hw : Mock) (f : Nat → Except Stuck State) : Prop :=
  (∃ F a, f F = Except.ok a ∧ a.mode = PinMode.input_nopull) ∨ Hangs hw f

/-! ## Basic facts about outcomes -/

@[simp] theorem ok_bind {α β : Type} (a : α) (f : α → Except Stuck β) :
    (Except.ok a >>= f) = f a := rfl

@[simp] theorem error_bind {α β : Type} (e : Stuck) (f : α → Except Stuck β) :
    ((Except.error e : Except Stuck α) >>= f) = Except.error e := rfl

@[simp] theorem pure_eq_ok {α : Type} (a : α) : (pure a : Except Stuck α) = Except.ok a := rfl

theorem bind_eq_ok {α β : Type} {x : Except Stuck α} {f : α → Except Stuck β} {b : β} :
    (x >>= f) = Except.ok b ↔ ∃ a, x = Except.ok a ∧ f a = Except.ok b := by
  cases x with
  | error e => simp
  | ok a => simp

@[simp] theorem res_state_ok (s : State) : res_state (Except.ok s) = s := rfl

@[simp] theorem res_state_error (l : Loc) (s : State) : res_state (Except.error (l, s)) = s := rfl

/-! ## `delay_us` -/

theorem delay_us_spin_count (tick : Nat → Nat) (us : Nat) (htick : ∀ c, c < us → tick c = c + 1) :
    ∀ fuel cnt waited, cnt ≤ us →
      delay_us_spin tick us fuel cnt waited =
        if us < cnt + fuel then some (us, waited + (us - cnt)) else none := by
  intro fuel
  induction fuel with
  | zero =>
    intro cnt waited h
    rw [if_neg (by omega)]
    rfl
  | succ n ih =>
    intro cnt waited h
    unfold delay_us_spin
    by_cases hc : cnt < us
    · rw [if_pos hc, htick cnt hc, ih (cnt + 1) (waited + 1) hc]
      by_cases h2 : us < cnt + 1 + n
      · have e : waited + 1 + (us - (cnt + 1)) = waited + (us - cnt) := by omega
        rw [if_pos h2, if_pos (by omega), e]
      · rw [if_neg h2, if_neg (by omega)]
    · have : cnt = us := by omega
      subst this
      simp

theorem delay_us_spin_never (tick : Nat → Nat) (us : Nat) :
    ∀ fuel cnt waited, (∀ k, tick^[k] cnt < us) → delay_us_spin tick us fuel cnt waited = none := by
  intro fuel
  induction fuel with
  | zero => intro cnt waited _; rfl
  | succ n ih =>
    intro cnt waited h
    unfold delay_us_spin
    have h0 : cnt < us := h 0
    rw [if_pos h0]
    apply ih
    intro k
    have := h (k + 1)
    rwa [Function.iterate_succ_apply] at this

theorem iterate_wrap_lt (p : Nat) (hp : 0 < p) : ∀ k, (fun c => (c + 1) % p)^[k] 0 < p := by
  intro k
  cases k with
  | zero => simpa using hp
  | succ n =>
    rw [Function.iterate_succ_apply']
    exact Nat.mod_lt _ hp

theorem delay_us_tim (us : Nat) (h : us < 65536) :
    delay_us tim_tick us 65536 = some (us, us) := by
  unfold delay_us
  rw [delay_us_spin_count tim_tick us _ 65536 0 0 (Nat.zero_le _)]
  · simp [h]
  · intro c hc
    unfold tim_tick
    exact Nat.mod_eq_of_lt (by omega)

theorem delay_us_call_eq (us : Nat) (h : us < 65536) (s : State) :
    delay_us_call us s =
      Except.ok { s with now := s.now + us, log := (s.now, Event.delay_us us) :: s.log } := by
  unfold delay_us_call
  rw [delay_us_tim us h]

/-! ## The two pin spins as one loop -/

theorem wait_while_low_eq (hw : Mock) (j i : Nat) :
    ∀ fuel s, wait_while_low hw j i fuel s = spin hw Site.wait_low false (Loc.wait_low j i) fuel s := by
  intro fuel
  induction fuel with
  | zero => intro s; rfl
  | succ n ih =>
    intro s
    unfold wait_while_low spin
    cases h : gpio_level hw s <;> simp [HAL_GPIO_ReadPin, h, ih]

theorem wait_while_high_eq (hw : Mock) (j i : Nat) :
    ∀ fuel s, wait_while_high hw j i fuel s = spin hw Site.wait_high true (Loc.wait_high j i) fuel s := by
  intro fuel
  induction fuel with
  | zero => intro s; rfl
  | succ n ih =>
    intro s
    unfold wait_while_high spin
    cases h : gpio_level hw s <;> simp [HAL_GPIO_ReadPin, h, ih]

theorem samples_cons (t : Nat) (e : Event) (log : List (Nat × Event)) :
    samples ((t, e) :: log) =
      samples log ++ (match e with
        | Event.read Site.sample lvl => [lvl]
        | _ => []) := by
  unfold samples
  rw [List.reverse_cons, List.filterMap_append]
  congr 1
  cases e with
  | read site lvl => cases site <;> rfl
  | _ => rfl

theorem sample_times_cons (t : Nat) (e : Event) (log : List (Nat × Event)) :
    sample_times ((t, e) :: log) =
      sample_times log ++ (match e with
        | Event.read Site.sample _ => [t]
        | _ => []) := by
  unfold sample_times
  rw [List.reverse_cons, List.filterMap_append]
  congr 1
  cases e with
  | read site lvl => cases site <;> rfl
  | _ => rfl

theorem sample_times_append (a b : List (Nat × Event)) :
    sample_times (a ++ b) = sample_times b ++ sample_times a := by
  unfold sample_times
  rw [List.reverse_append, List.filterMap_append]

theorem samples_append (a b : List (Nat × Event)) : samples (a ++ b) = samples b ++ samples a := by
  unfold samples
  rw [List.reverse_append, List.filterMap_append]

theorem gpio_level_input (hw : Mock) (s : State) (h : s.mode = PinMode.input_nopull) :
    gpio_level hw s = hw.line s.now := by
  unfold gpio_level
  rw [h]

/-- A spin that returns polled `k` times the level it waits on and then the
other one; it moved the clock by `k` and recorded reads only. -/
theorem spin_ok (hw : Mock) (site : Site) (lvl : Bool) (loc : Loc) (hsite : site ≠ Site.sample) :
    ∀ fuel s s', s.mode = PinMode.input_nopull → spin hw site lvl loc fuel s = Except.ok s' →
      ∃ k, k < fuel ∧ (∀ m, m < k → hw.line (s.now + m) = lvl) ∧ hw.line (s.now + k) = !lvl ∧
        s'.now = s.now + k ∧ s'.data = s.data ∧ s'.mem = s.mem ∧ s'.mode = s.mode ∧
        samples s'.log = samples s.log ∧ sample_times s'.log = sample_times s.log := by
  intro fuel
  induction fuel with
  | zero => intro s s' _ h; simp [spin] at h
  | succ n ih =>
    intro s s' hm h
    unfold spin at h
    by_cases hl : gpio_level hw s = lvl
    · rw [if_pos hl] at h
      obtain ⟨k, hk, hlow, hhigh, hnow, hdata, hmem, hmode, hs, ht⟩ := ih _ s' (by simpa [spin_tick, HAL_GPIO_ReadPin] using hm) h
      simp only [spin_tick, HAL_GPIO_ReadPin] at hlow hhigh hnow hdata hmem hmode hs ht
      refine ⟨k + 1, by omega, ?_, ?_, by omega, hdata, hmem, hmode, ?_, ?_⟩
      · intro m hmk
        cases m with
        | zero => rw [← hl, gpio_level_input hw s hm]; rfl
        | succ m =>
          have := hlow m (by omega)
          rwa [show s.now + (m + 1) = s.now + 1 + m by omega]
      · rwa [show s.now + (k + 1) = s.now + 1 + k by omega]
      · rw [hs, samples_cons]
        cases site <;> simp at hsite ⊢
      · rw [ht, sample_times_cons]
        cases site <;> simp at hsite ⊢
    · rw [if_neg hl] at h
      injection h with h
      subst h
      refine ⟨0, by omega, by intro m hmk; omega, ?_, rfl, rfl, rfl, rfl, ?_, ?_⟩
      · rw [gpio_level_input hw s hm] at hl
        cases hx : hw.line s.now <;> cases lvl <;> simp_all
      · simp only [HAL_GPIO_ReadPin]
        rw [samples_cons]
        cases site <;> simp at hsite ⊢
      · simp only [HAL_GPIO_ReadPin]
        rw [sample_times_cons]
        cases site <;> simp at hsite ⊢

/-- A spin returns as soon as the level changes within the fuel. -/
theorem spin_term (hw : Mock) (site : Site) (lvl : Bool) (loc : Loc) :
    ∀ fuel s k, s.mode = PinMode.input_nopull → k < fuel → hw.line (s.now + k) = (!lvl) →
      ∃ s', spin hw site lvl loc fuel s = Except.ok s' := by
  intro fuel
  induction fuel with
  | zero => intro s k _ h; omega
  | succ n ih =>
    intro s k hm hk hl
    unfold spin
    by_cases h0 : gpio_level hw s = lvl
    · rw [if_pos h0]
      cases k with
      | zero =>
        rw [gpio_level_input hw s hm] at h0
        simp [h0] at hl
      | succ k =>
        apply ih _ k (by simpa [spin_tick, HAL_GPIO_ReadPin] using hm) (by omega)
        simp only [spin_tick, HAL_GPIO_ReadPin]
        rwa [show s.now + 1 + k = s.now + (k + 1) by omega]
    · rw [if_neg h0]
      exact ⟨_, rfl⟩

/-- A spin that ran out of fuel polled `fuel` times the level it waits on. -/
theorem spin_error (hw : Mock) (site : Site) (lvl : Bool) (loc : Loc) (hsite : site ≠ Site.sample) :
    ∀ fuel s e, s.mode = PinMode.input_nopull → spin hw site lvl loc fuel s = Except.error e →
      e.1 = loc ∧ (∀ m, m < fuel → hw.line (s.now + m) = lvl) ∧ e.2.now = s.now + fuel ∧
        e.2.data = s.data ∧ e.2.mem = s.mem ∧ e.2.mode = s.mode ∧ samples e.2.log = samples s.log := by
  intro fuel
  induction fuel with
  | zero =>
    intro s e _ h
    simp only [spin] at h
    injection h with h
    subst h
    exact ⟨rfl, by intro m hm; omega, rfl, rfl, rfl, rfl, rfl⟩
  | succ n ih =>
    intro s e hm h
    unfold spin at h
    by_cases hl : gpio_level hw s = lvl
    · rw [if_pos hl] at h
      obtain ⟨hloc, hlow, hnow, hdata, hmem, hmode, hs⟩ := ih _ e (by simpa [spin_tick, HAL_GPIO_ReadPin] using hm) h
      simp only [spin_tick, HAL_GPIO_ReadPin] at hlow hnow hdata hmem hmode hs
      refine ⟨hloc, ?_, by omega, hdata, hmem, hmode, ?_⟩
      · intro m hmk
        cases m with
        | zero => rw [← hl, gpio_level_input hw s hm]; rfl
        | succ m =>
          have := hlow m (by omega)
          rwa [show s.now + (m + 1) = s.now + 1 + m by omega]
      · rw [hs, samples_cons]
        cases site <;> simp at hsite ⊢
    · rw [if_neg hl] at h
      simp at h

/-- A spin whose level never changes within the fuel runs out of fuel. -/
theorem spin_stuck (hw : Mock) (site : Site) (lvl : Bool) (loc : Loc) :
    ∀ fuel s, s.mode = PinMode.input_nopull → (∀ m, m < fuel → hw.line (s.now + m) = lvl) →
      ∃ st, spin hw site lvl loc fuel s = Except.error (loc, st) := by
  intro fuel
  induction fuel with
  | zero => intro s _ _; exact ⟨s, rfl⟩
  | succ n ih =>
    intro s hm h
    unfold spin
    have h0 : gpio_level hw s = lvl := by
      rw [gpio_level_input hw s hm]
      simpa using h 0 (by omega)
    rw [if_pos h0]
    apply ih _ (by simpa [spin_tick, HAL_GPIO_ReadPin] using hm)
    intro m hmn
    simp only [spin_tick, HAL_GPIO_ReadPin]
    have := h (m + 1) (by omega)
    rwa [show s.now + 1 + m = s.now + (m + 1) by omega]

/-! ## What the sampling phase may do to the state -/

theorem Ext.refl (s : State) : Ext s s :=
  ⟨rfl, rfl, Nat.le_refl _, rfl, ⟨[], rfl, by simp⟩, ⟨[], rfl, by simp⟩⟩

theorem Ext.trans {a b c : State} (h1 : Ext a b) (h2 : Ext b c) : Ext a c := by
  obtain ⟨e1, he1, hq1⟩ := h1.log
  obtain ⟨e2, he2, hq2⟩ := h2.log
  obtain ⟨m1, hm1, hk1⟩ := h1.mem
  obtain ⟨m2, hm2, hk2⟩ := h2.mem
  refine ⟨h2.mode.trans h1.mode, h2.odr.trans h1.odr, Nat.le_trans h1.now h2.now,
    h2.len.trans h1.len, ⟨e2 ++ e1, by rw [he2, he1, List.append_assoc], ?_⟩,
    ⟨m2 ++ m1, by rw [hm2, hm1, List.append_assoc], ?_⟩⟩
  · intro e he
    rcases List.mem_append.1 he with h | h
    · have := hq2 e h
      exact ⟨Nat.le_trans h1.now this.1, this.2⟩
    · exact hq1 e h
  · intro op hop
    rcases List.mem_append.1 hop with h | h
    · exact hk2 op h
    · exact hk1 op h

theorem ext_read (hw : Mock) (site : Site) (s : State) : Ext s (HAL_GPIO_ReadPin hw site s).2 :=
  ⟨rfl, rfl, Nat.le_refl _, rfl,
    ⟨[(s.now, Event.read site (gpio_level hw s))], rfl, by
      intro e he
      simp only [List.mem_singleton] at he
      subst he
      exact ⟨Nat.le_refl _, Or.inr ⟨_, _, rfl⟩⟩⟩,
    ⟨[], rfl, by simp⟩⟩

theorem ext_tick (s : State) : Ext s (spin_tick s) :=
  ⟨rfl, rfl, Nat.le_succ _, rfl, ⟨[], rfl, by simp⟩, ⟨[], rfl, by simp⟩⟩

theorem ext_bind {s : State} {x : Except Stuck State} {g : State → Except Stuck State}
    (hx : Ext s (res_state x)) (hg : ∀ a, x = Except.ok a → Ext a (res_state (g a))) :
    Ext s (res_state (x >>= g)) := by
  cases x with
  | error e => simpa using hx
  | ok a =>
    simp only [ok_bind]
    exact Ext.trans hx (hg a rfl)

theorem ext_spin (hw : Mock) (site : Site) (lvl : Bool) (loc : Loc) :
    ∀ fuel s, Ext s (res_state (spin hw site lvl loc fuel s)) := by
  intro fuel
  induction fuel with
  | zero => intro s; exact Ext.refl s
  | succ n ih =>
    intro s
    unfold spin
    by_cases h : gpio_level hw s = lvl
    · rw [if_pos h]
      exact Ext.trans (Ext.trans (ext_read hw site s) (ext_tick _)) (ih _)
    · rw [if_neg h]
      exact ext_read hw site s

theorem ext_delay (s : State) : Ext s (res_state (delay_us_call 40 s)) := by
  rw [delay_us_call_eq 40 (by omega)]
  exact ⟨rfl, rfl, Nat.le_add_right _ _, rfl,
    ⟨[(s.now, Event.delay_us 40)], rfl, by
      intro e he
      simp only [List.mem_singleton] at he
      subst he
      exact ⟨Nat.le_refl _, Or.inl rfl⟩⟩,
    ⟨[], rfl, by simp⟩⟩

theorem bit_shift_range (i : Nat) (hi : i < 8) : 0 ≤ bit_shift i ∧ bit_shift i ≤ 7 := by
  unfold bit_shift
  omega

theorem bit_mask_mem (i : Nat) (hi : i < 8) : bit_mask i ∈ [128, 64, 32, 16, 8, 4, 2, 1] := by
  have h : ∀ k, k < 8 → bit_mask k ∈ [128, 64, 32, 16, 8, 4, 2, 1] := by decide
  exact h i hi

theorem bit_mask_lt (i : Nat) (hi : i < 8) : bit_mask i < 256 := by
  have h : ∀ k, k < 8 → bit_mask k < 256 := by decide
  exact h i hi

theorem ext_or_bit (j i : Nat) (hj : j < 5) (hi : i < 8) (s : State) : Ext s (or_bit j i s) :=
  ⟨rfl, rfl, Nat.le_refl _, by simp [or_bit], ⟨[], rfl, by simp⟩,
    ⟨[MemOp.or_assign j (bit_shift i) (bit_mask i)], rfl, by
      intro op hop
      simp only [List.mem_singleton] at hop
      subst hop
      exact ⟨hj, (bit_shift_range i hi).1, (bit_shift_range i hi).2, rfl, bit_mask_mem i hi,
        bit_mask_lt i hi⟩⟩⟩

theorem ext_clear (j : Nat) (hj : j < 5) (s : State) : Ext s (clear_byte j s) :=
  ⟨rfl, rfl, Nat.le_refl _, by simp [clear_byte], ⟨[], rfl, by simp⟩,
    ⟨[MemOp.assign j 0], rfl, by
      intro op hop
      simp only [List.mem_singleton] at hop
      subst hop
      exact ⟨hj, rfl⟩⟩⟩

theorem ext_sample_bit_from (hw : Mock) (fuel j i : Nat) (hj : j < 5) (hi : i < 8) (b s : State)
    (hb : Ext b (res_state (wait_while_low hw j i fuel s))) :
    Ext b (res_state (sample_bit hw fuel j i s)) := by
  unfold sample_bit
  apply ext_bind hb
  intro s1 _
  apply ext_bind (ext_delay s1)
  intro s2 _
  rw [wait_while_high_eq]
  refine Ext.trans ?_ (ext_spin _ _ _ _ _ _)
  by_cases h : (HAL_GPIO_ReadPin hw Site.sample s2).1 = true
  · simp only [h, if_true]
    exact Ext.trans (ext_read hw _ s2) (ext_or_bit j i hj hi _)
  · simp only [h, if_false]
    exact ext_read hw _ s2

theorem ext_sample_bit (hw : Mock) (fuel j i : Nat) (hj : j < 5) (hi : i < 8) (s : State) :
    Ext s (res_state (sample_bit hw fuel j i s)) := by
  apply ext_sample_bit_from hw fuel j i hj hi
  rw [wait_while_low_eq]
  exact ext_spin _ _ _ _ _ _

theorem ext_foldlM {ι : Type} (f : State → ι → Except Stuck State) :
    ∀ (l : List ι), (∀ x ∈ l, ∀ s, Ext s (res_state (f s x))) →
      ∀ s, Ext s (res_state (l.foldlM f s)) := by
  intro l
  induction l with
  | nil => intro _ s; exact Ext.refl s
  | cons x xs ih =>
    intro h s
    rw [List.foldlM_cons]
    apply ext_bind (h x (List.mem_cons_self _ _) s)
    intro a _
    exact ih (fun y hy => h y (List.mem_cons_of_mem _ hy)) a

theorem ext_read_byte (hw : Mock) (fuel j : Nat) (hj : j < 5) (s : State) :
    Ext s (res_state (read_byte hw fuel j s)) := by
  unfold read_byte bit_loop
  refine Ext.trans (ext_clear j hj s) (ext_foldlM _ _ ?_ _)
  intro i hi st
  exact ext_sample_bit hw fuel j i hj (List.mem_range.1 hi) st

theorem ext_sample_loop (hw : Mock) (fuel : Nat) (s : State) :
    Ext s (res_state (sample_loop hw fuel s)) := by
  unfold sample_loop
  apply ext_foldlM
  intro j hj st
  exact ext_read_byte hw fuel j (List.mem_range.1 hj) st

/-! ## One bit -/

/-- What one pass of lines 48-52 that returns has done: it saw the line low
for `k1` polls, then high; it sampled 40 ticks later; it then saw the line
high for `k2` polls, then low. -/
theorem sample_bit_ok (hw : Mock) (fuel j i : Nat) (s s' : State)
    (hm : s.mode = PinMode.input_nopull) (h : sample_bit hw fuel j i s = Except.ok s') :
    ∃ k1 k2, k1 < fuel ∧ k2 < fuel ∧
      (∀ m, m < k1 → hw.line (s.now + m) = false) ∧ hw.line (s.now + k1) = true ∧
      (∀ m, m < k2 → hw.line (s.now + k1 + 40 + m) = true) ∧
      hw.line (s.now + k1 + 40 + k2) = false ∧
      s'.now = s.now + k1 + 40 + k2 ∧ s'.mode = PinMode.input_nopull ∧
      samples s'.log = samples s.log ++ [hw.line (s.now + k1 + 40)] ∧
      s'.data = (if hw.line (s.now + k1 + 40) then
        s.data.set j ((s.data.getD j 0 ||| bit_mask i) % 256) else s.data) ∧
      sample_times s'.log = sample_times s.log ++ [s.now + k1 + 40] := by
  unfold sample_bit at h
  rw [wait_while_low_eq] at h
  obtain ⟨s1, h1, h⟩ := bind_eq_ok.1 h
  obtain ⟨k1, hk1, hlow, hhigh, hnow1, hdata1, _, hmode1, hs1, ht1⟩ :=
    spin_ok hw Site.wait_low false (Loc.wait_low j i) (by decide) fuel s s1 hm h1
  rw [delay_us_call_eq 40 (by omega)] at h
  simp only [ok_bind] at h
  rw [wait_while_high_eq] at h
  have hm1 : s1.mode = PinMode.input_nopull := hmode1.trans hm
  have hlvl : gpio_level hw { s1 with now := s1.now + 40, log := (s1.now, Event.delay_us 40) :: s1.log }
      = hw.line (s.now + k1 + 40) := by
    simp only [gpio_level, hm1, hnow1]
  simp only [HAL_GPIO_ReadPin, hlvl] at h
  cases hb : hw.line (s.now + k1 + 40)
  · simp only [hb, if_false, Bool.false_eq_true] at h
    obtain ⟨k2, hk2, hhi2, hlo2, hnow2, hdata2, _, hmode2, hs2, ht2⟩ :=
      spin_ok hw Site.wait_high true (Loc.wait_high j i) (by decide) fuel _ s' (by exact hm1) h
    simp only [hnow1, hdata1] at hhi2 hlo2 hnow2 hdata2 hmode2
    refine ⟨k1, k2, hk1, hk2, hlow, by simpa using hhigh, hhi2, by simpa using hlo2, hnow2,
      hmode2.trans hm1, ?_, by simpa [hb] using hdata2, ?_⟩
    · rw [hs2, samples_cons, samples_cons, hs1]
      simp [hb]
    · rw [ht2, sample_times_cons, sample_times_cons, ht1]
      simp [hnow1]
  · simp only [hb, if_true] at h
    obtain ⟨k2, hk2, hhi2, hlo2, hnow2, hdata2, _, hmode2, hs2, ht2⟩ :=
      spin_ok hw Site.wait_high true (Loc.wait_high j i) (by decide) fuel _ s' (by exact hm1) h
    simp only [or_bit, hnow1, hdata1] at hhi2 hlo2 hnow2 hdata2 hmode2 hs2 ht2
    refine ⟨k1, k2, hk1, hk2, hlow, by simpa using hhigh, hhi2, by simpa using hlo2, hnow2,
      hmode2.trans hm1, ?_, by simpa [hb] using hdata2, ?_⟩
    · rw [hs2, samples_cons, samples_cons, hs1]
      simp [hb]
    · rw [ht2, sample_times_cons, sample_times_cons, ht1]
      simp [hnow1]

/-- One pass of lines 48-52 returns when the line rises within the fuel and,
from the sample point on, falls within the fuel. -/
theorem sample_bit_term (hw : Mock) (fuel j i : Nat) (s : State) (k1 k2 : Nat)
    (hm : s.mode = PinMode.input_nopull) (hk1 : k1 < fuel) (hk2 : k2 < fuel)
    (hlow : ∀ m, m < k1 → hw.line (s.now + m) = false) (hhigh : hw.line (s.now + k1) = true)
    (hfall : hw.line (s.now + k1 + 40 + k2) = false) :
    ∃ s', sample_bit hw fuel j i s = Except.ok s' := by
  unfold sample_bit
  rw [wait_while_low_eq]
  obtain ⟨s1, h1⟩ := spin_term hw Site.wait_low false (Loc.wait_low j i) fuel s k1 hm hk1
    (by simpa using hhigh)
  obtain ⟨k, _, hlow1, hhigh1, hnow1, _, _, hmode1, _⟩ :=
    spin_ok hw Site.wait_low false (Loc.wait_low j i) (by decide) fuel s s1 hm h1
  have hk : k = k1 := by
    rcases Nat.lt_trichotomy k k1 with hlt | heq | hgt
    · have := hlow k hlt
      simp [this] at hhigh1
    · exact heq
    · have := hlow1 k1 hgt
      simp [this] at hhigh
  subst hk
  rw [h1]
  simp only [ok_bind]
  rw [delay_us_call_eq 40 (by omega)]
  simp only [ok_bind]
  rw [wait_while_high_eq]
  apply spin_term hw Site.wait_high true (Loc.wait_high j i) fuel _ k2 _ hk2
  · have e : ∀ st : State, st.now = s1.now + 40 → hw.line (st.now + k2) = !true := by
      intro st hst
      rw [hst, hnow1]
      simpa using hfall
    split
    · exact e _ rfl
    · exact e _ rfl
  · split
    · exact hmode1.trans hm
    · exact hmode1.trans hm

/-! ## The start signal -/

theorem start_signal_eq (hw : Mock) (s : State) : start_signal hw s = Except.ok (started hw s) := by
  unfold start_signal
  simp only []
  rw [delay_us_call_eq 30 (by omega)]
  rfl

theorem DHT11_Read_eq (hw : Mock) (fuel : Nat) (s : State) :
    DHT11_Read hw fuel s = (sample_loop hw fuel (started hw s) >>= fun s2 => pure (1, s2)) := by
  unfold DHT11_Read
  rw [start_signal_eq]
  rfl

theorem end_state_eq (hw : Mock) (fuel : Nat) (s : State) :
    end_state (DHT11_Read hw fuel s) = res_state (sample_loop hw fuel (started hw s)) := by
  rw [DHT11_Read_eq]
  cases sample_loop hw fuel (started hw s) with
  | error e => rfl
  | ok a => rfl

theorem DHT11_Read_ok (hw : Mock) (fuel : Nat) (s : State) (r : Nat) (s' : State) :
    DHT11_Read hw fuel s = Except.ok (r, s') ↔
      r = 1 ∧ sample_loop hw fuel (started hw s) = Except.ok s' := by
  rw [DHT11_Read_eq]
  cases sample_loop hw fuel (started hw s) with
  | error e => simp
  | ok a =>
    simp only [ok_bind, pure_eq_ok, Except.ok.injEq, Prod.mk.injEq]
    constructor
    · rintro ⟨h1, h2⟩
      exact ⟨h1.symm, h2⟩
    · rintro ⟨h1, h2⟩
      exact ⟨h1.symm, h2⟩

/-! ## The sampling loop as a straight list of steps -/

theorem byte_ops_run (hw : Mock) (fuel j : Nat) (s : State) :
    (byte_ops j).foldlM (step hw fuel) s = read_byte hw fuel j s := by
  unfold byte_ops read_byte bit_loop
  rw [List.foldlM_cons]
  simp only [step, ok_bind]
  rw [List.foldlM_map]
  rfl

theorem loop_flat (hw : Mock) (fuel : Nat) :
    ∀ (js : List Nat) (s : State),
      js.foldlM (fun st j => read_byte hw fuel j st) s =
        (js.foldr (fun j acc => byte_ops j ++ acc) []).foldlM (step hw fuel) s := by
  intro js
  induction js with
  | nil => intro s; rfl
  | cons j js ih =>
    intro s
    rw [List.foldlM_cons, List.foldr_cons, List.foldlM_append, byte_ops_run]
    congr 1
    funext a
    exact ih a

theorem sample_loop_flat (hw : Mock) (fuel : Nat) (s : State) :
    sample_loop hw fuel s = prog.foldlM (step hw fuel) s :=
  loop_flat hw fuel (List.range 5) s

theorem nbits_prog : nbits prog = 40 := by decide

/-! ## Pulse trains -/

theorem wave_cons (lo hi : Nat) (rest : List (Nat × Nat)) (t : Nat) :
    wave ((lo, hi) :: rest) t =
      if t < lo then false else if t < lo + hi then true else wave rest (t - (lo + hi)) := rfl

theorem wave_low (lo hi : Nat) (rest : List (Nat × Nat)) (t : Nat) (h : t < lo) :
    wave ((lo, hi) :: rest) t = false := by
  rw [wave_cons, if_pos h]

theorem wave_high (lo hi : Nat) (rest : List (Nat × Nat)) (t : Nat) (h1 : lo ≤ t) (h2 : t < lo + hi) :
    wave ((lo, hi) :: rest) t = true := by
  rw [wave_cons, if_neg (by omega), if_pos h2]

theorem wave_past (lo hi : Nat) (rest : List (Nat × Nat)) (t : Nat) (h : lo + hi ≤ t) :
    wave ((lo, hi) :: rest) t = wave rest (t - (lo + hi)) := by
  rw [wave_cons, if_neg (by omega), if_neg (by omega)]

/-- Once the train was high at `a` and is low at a later `b`, what follows `b`
is the tail of a train with fewer pulses. -/
theorem wave_after_high :
    ∀ (ps : List (Nat × Nat)) (a b : Nat), wave ps a = true → a < b → wave ps b = false →
      ∃ ps2 c2, ps2.length < ps.length ∧ ∀ x, wave ps (b + x) = wave ps2 (c2 + x) := by
  intro ps
  induction ps with
  | nil => intro a b h; simp [wave] at h
  | cons p rest ih =>
    obtain ⟨lo, hi⟩ := p
    intro a b ha hab hb
    have hlo : lo ≤ a := by
      by_contra hc
      rw [wave_low lo hi rest a (by omega)] at ha
      simp at ha
    by_cases hin : a < lo + hi
    · have hbe : lo + hi ≤ b := by
        by_contra hc
        rw [wave_high lo hi rest b (by omega) (by omega)] at hb
        simp at hb
      refine ⟨rest, b - (lo + hi), by simp, ?_⟩
      intro x
      rw [wave_past lo hi rest (b + x) (by omega)]
      congr 1
      omega
    · rw [wave_past lo hi rest a (by omega)] at ha
      rw [wave_past lo hi rest b (by omega)] at hb
      obtain ⟨ps2, c2, hlen, hw2⟩ := ih (a - (lo + hi)) (b - (lo + hi)) ha (by omega) hb
      refine ⟨ps2, c2, by simp; omega, ?_⟩
      intro x
      rw [wave_past lo hi rest (b + x) (by omega), ← hw2 x]
      congr 1
      omega

/-! ## Runs on a pulse train -/

theorem HeadLt.ok {c : Nat} {ps : List (Nat × Nat)} (h : HeadLt c ps) : HeadOk c ps := by
  cases ps with
  | nil => trivial
  | cons p rest => exact Nat.le_of_lt h

theorem HeadLt.mono {c d : Nat} {ps : List (Nat × Nat)} (h : HeadLt c ps) (hd : d ≤ c) :
    HeadLt d ps := by
  cases ps with
  | nil => trivial
  | cons p rest => exact Nat.lt_of_le_of_lt hd h

/-- A run cannot return when fewer pulses are left than bits to read: every
bit waits for a rising edge of its own. -/
theorem run_short (hw : Mock) (fuel : Nat) :
    ∀ (ops : List Op) (s : State) (ps : List (Nat × Nat)) (c : Nat), Sync hw s ps c →
      ps.length < nbits ops → ∀ s', ops.foldlM (step hw fuel) s ≠ Except.ok s' := by
  intro ops
  induction ops with
  | nil => intro s ps c _ h; simp [nbits] at h
  | cons op ops ih =>
    intro s ps c hs hlen s' hrun
    rw [List.foldlM_cons] at hrun
    cases op with
    | clear j =>
      simp only [step, ok_bind] at hrun
      exact ih (clear_byte j s) ps c ⟨hs.1, hs.2⟩ (by simpa [nbits] using hlen) s' hrun
    | bit j i =>
      simp only [step] at hrun
      obtain ⟨s1, h1, hrest⟩ := bind_eq_ok.1 hrun
      obtain ⟨k1, k2, _, _, _, hhigh, _, hfall, hnow, hmode, _, _⟩ :=
        sample_bit_ok hw fuel j i s s1 hs.1 h1
      have ha : wave ps (c + k1) = true := by rw [← hs.2]; exact hhigh
      have hb : wave ps (c + (k1 + 40 + k2)) = false := by
        rw [← hs.2, ← hfall]
        congr 1
        omega
      obtain ⟨ps2, c2, hl2, hw2⟩ := wave_after_high ps _ _ ha (by omega) hb
      refine ih s1 ps2 c2 ⟨hmode, ?_⟩ (by simp only [nbits] at hlen; omega) s' hrest
      intro x
      rw [hnow, ← hw2 x, show c + (k1 + 40 + k2) + x = c + (k1 + 40 + k2 + x) by omega, ← hs.2]
      congr 1
      omega

/-- On a train entered in the low part of its first pulse, a bit pass finds
the rising edge of that pulse, and leaves the train at its second pulse. -/
theorem bit_on_wave (hw : Mock) (s : State) (lo hi : Nat) (ps1 : List (Nat × Nat))
    (c k1 k2 : Nat) (hs : Sync hw s ((lo, hi) :: ps1) c) (hc : c ≤ lo) (hhi : 1 ≤ hi)
    (hlow : ∀ m, m < k1 → hw.line (s.now + m) = false) (hhigh : hw.line (s.now + k1) = true)
    (hfall : hw.line (s.now + k1 + 40 + k2) = false) :
    c + k1 = lo ∧ hi ≤ 40 + k2 ∧
      (∀ x, hw.line (s.now + k1 + 40 + k2 + x) = wave ps1 (40 + k2 - hi + x)) ∧
      wave ps1 (40 + k2 - hi) = false ∧
      hw.line (s.now + k1 + 40) = wave ((lo, hi) :: ps1) (lo + 40) := by
  have ha : wave ((lo, hi) :: ps1) (c + k1) = true := by rw [← hs.2]; exact hhigh
  have hge : lo ≤ c + k1 := by
    by_contra h
    rw [wave_low lo hi ps1 _ (by omega)] at ha
    simp at ha
  have e1 : c + k1 = lo := by
    by_contra hne
    have h1 := hlow (lo - c) (by omega)
    rw [hs.2, wave_high lo hi ps1 _ (by omega) (by omega)] at h1
    simp at h1
  have hb : wave ((lo, hi) :: ps1) (lo + 40 + k2) = false := by
    have hx := hs.2 (k1 + 40 + k2)
    rw [show s.now + (k1 + 40 + k2) = s.now + k1 + 40 + k2 by omega, hfall,
      show c + (k1 + 40 + k2) = lo + 40 + k2 by omega] at hx
    exact hx.symm
  have e2 : hi ≤ 40 + k2 := by
    by_contra h
    rw [wave_high lo hi ps1 _ (by omega) (by omega)] at hb
    simp at hb
  have h3 : ∀ x, hw.line (s.now + k1 + 40 + k2 + x) = wave ps1 (40 + k2 - hi + x) := by
    intro x
    rw [show s.now + k1 + 40 + k2 + x = s.now + (k1 + 40 + k2 + x) by omega, hs.2,
      wave_past lo hi ps1 _ (by omega)]
    congr 1
    omega
  refine ⟨e1, e2, h3, ?_, ?_⟩
  · have := h3 0
    simp only [Nat.add_zero] at this
    rw [← this]
    exact hfall
  · rw [show s.now + k1 + 40 = s.now + (k1 + 40) by omega, hs.2]
    congr 1
    omega

/-- The level at the sample point of a pulse, when the sample point does not
reach the high part of the next pulse. -/
theorem sample_value (lo hi : Nat) (ps1 : List (Nat × Nat)) (c1 : Nat) (hge : 40 - hi ≤ c1)
    (hhead : HeadLt c1 ps1) : wave ((lo, hi) :: ps1) (lo + 40) = decide (40 < hi) := by
  by_cases h : 40 < hi
  · rw [wave_high lo hi ps1 _ (by omega) (by omega)]
    simp [h]
  · rw [wave_past lo hi ps1 _ (by omega)]
    simp only [h, decide_False]
    cases ps1 with
    | nil => rfl
    | cons p rest =>
      obtain ⟨lo1, hi1⟩ := p
      have hlt : c1 < lo1 := hhead
      exact wave_low lo1 hi1 rest _ (by omega)

theorem head_lt_of_low (c : Nat) (ps : List (Nat × Nat)) (hpos : Pulses ps) (hok : HeadOk c ps)
    (hlow : wave ps c = false) : HeadLt c ps := by
  cases ps with
  | nil => trivial
  | cons p rest =>
    obtain ⟨lo, hi⟩ := p
    have hle : c ≤ lo := hok
    have hhi : 1 ≤ hi := (hpos (lo, hi) (List.mem_cons_self _ _)).2
    show c < lo
    by_contra hc
    rw [wave_high lo hi rest c (by omega) (by omega)] at hlow
    simp at hlow

/-- On a train of as many pulses as bits are read, a run that returns has
sampled every pulse 40 ticks after its own rising edge. -/
theorem run_synced (hw : Mock) (fuel : Nat) :
    ∀ (ops : List Op) (ps : List (Nat × Nat)) (s : State) (c : Nat) (s' : State),
      Sync hw s ps c → Pulses ps → HeadOk c ps → nbits ops = ps.length →
      ops.foldlM (step hw fuel) s = Except.ok s' →
      samples s'.log = samples s.log ++ bits_of ps := by
  intro ops
  induction ops with
  | nil =>
    intro ps s c s' _ _ _ hlen hrun
    have hps : ps = [] := List.length_eq_zero.1 (by simpa [nbits] using hlen.symm)
    subst hps
    simp only [List.foldlM_nil, pure_eq_ok, Except.ok.injEq] at hrun
    subst hrun
    simp [bits_of]
  | cons op ops ih =>
    intro ps s c s' hs hpos hok hlen hrun
    rw [List.foldlM_cons] at hrun
    cases op with
    | clear j =>
      simp only [step, ok_bind] at hrun
      exact ih ps (clear_byte j s) c s' ⟨hs.1, hs.2⟩ hpos hok (by simpa [nbits] using hlen) hrun
    | bit j i =>
      cases ps with
      | nil => simp [nbits] at hlen
      | cons p ps1 =>
        obtain ⟨lo, hi⟩ := p
        simp only [step] at hrun
        obtain ⟨s1, h1, hrest⟩ := bind_eq_ok.1 hrun
        obtain ⟨k1, k2, _, _, hlow, hhigh, _, hfall, hnow, hmode, hsam, _⟩ :=
          sample_bit_ok hw fuel j i s s1 hs.1 h1
        have hhi : 1 ≤ hi := (hpos (lo, hi) (List.mem_cons_self _ _)).2
        obtain ⟨_, e2, h3, hl1, hval⟩ := bit_on_wave hw s lo hi ps1 c k1 k2 hs hok hhi hlow hhigh hfall
        have hpos1 : Pulses ps1 := fun q hq => hpos q (List.mem_cons_of_mem _ hq)
        have hlen1 : nbits ops = ps1.length := by
          simp only [nbits, List.length_cons] at hlen
          omega
        have hs1 : Sync hw s1 ps1 (40 + k2 - hi) := ⟨hmode, by intro x; rw [hnow]; exact h3 x⟩
        have hok1 : HeadOk (40 + k2 - hi) ps1 := by
          cases ps1 with
          | nil => trivial
          | cons q ps2 =>
            obtain ⟨lo1, hi1⟩ := q
            show 40 + k2 - hi ≤ lo1
            by_contra hgt
            have hpast : lo1 + hi1 ≤ 40 + k2 - hi := by
              by_contra hin
              rw [wave_high lo1 hi1 ps2 _ (by omega) (by omega)] at hl1
              simp at hl1
            have hs2 : Sync hw s1 ps2 (40 + k2 - hi - (lo1 + hi1)) := by
              refine ⟨hmode, ?_⟩
              intro x
              rw [hs1.2 x, wave_past lo1 hi1 ps2 _ (by omega)]
              congr 1
              omega
            exact run_short hw fuel ops s1 ps2 _ hs2 (by simp at hlen1; omega) s' hrest
        have hlt1 : HeadLt (40 + k2 - hi) ps1 := head_lt_of_low _ ps1 hpos1 hok1 hl1
        have hv := sample_value lo hi ps1 (40 + k2 - hi) (by omega) hlt1
        rw [ih ps1 s1 _ s' hs1 hpos1 hok1 hlen1 hrest, hsam, hval, hv]
        simp [bits_of]

/-- On a well-timed train a run returns, given fuel above every pulse width,
and has sampled one pulse per bit, 40 ticks after its rising edge. -/
theorem run_well_timed (hw : Mock) (fuel : Nat) :
    ∀ (ops : List Op) (ps : List (Nat × Nat)) (s : State) (c : Nat),
      Sync hw s ps c → well_timed ps = true → HeadOk c ps → nbits ops ≤ ps.length →
      (∀ p ∈ ps, p.1 < fuel ∧ p.2 < fuel) →
      ∃ s', ops.foldlM (step hw fuel) s = Except.ok s' ∧
        samples s'.log = samples s.log ++ (bits_of ps).take (nbits ops) := by
  intro ops
  induction ops with
  | nil =>
    intro ps s c _ _ _ _ _
    exact ⟨s, rfl, by simp [nbits]⟩
  | cons op ops ih =>
    intro ps s c hs hwt hok hlen hfuel
    rw [List.foldlM_cons]
    cases op with
    | clear j =>
      simp only [step, ok_bind]
      exact ih ps (clear_byte j s) c ⟨hs.1, hs.2⟩ hwt hok (by simpa [nbits] using hlen) hfuel
    | bit j i =>
      cases ps with
      | nil => simp [nbits] at hlen
      | cons p ps1 =>
        obtain ⟨lo, hi⟩ := p
        simp only [well_timed, Bool.and_eq_true, decide_eq_true_eq] at hwt
        obtain ⟨⟨hhi, hnext⟩, hwt1⟩ := hwt
        have hle : c ≤ lo := hok
        have hf := hfuel (lo, hi) (List.mem_cons_self _ _)
        simp only at hf
        have hfall0 : ∃ k, k < fuel ∧ wave ((lo, hi) :: ps1) (lo + 40 + k) = false ∧
            HeadLt (40 + k - hi) ps1 := by
          by_cases h40 : 40 < hi
          · refine ⟨hi - 40, by omega, ?_, ?_⟩
            · rw [wave_past lo hi ps1 _ (by omega)]
              cases ps1 with
              | nil => rfl
              | cons q ps2 =>
                obtain ⟨lo1, hi1⟩ := q
                simp only [Bool.and_eq_true, decide_eq_true_eq] at hnext
                exact wave_low lo1 hi1 ps2 _ (by omega)
            · cases ps1 with
              | nil => trivial
              | cons q ps2 =>
                obtain ⟨lo1, hi1⟩ := q
                simp only [Bool.and_eq_true, decide_eq_true_eq] at hnext
                show 40 + (hi - 40) - hi < lo1
                omega
          · refine ⟨0, by omega, ?_, ?_⟩
            · rw [wave_past lo hi ps1 _ (by omega)]
              cases ps1 with
              | nil => rfl
              | cons q ps2 =>
                obtain ⟨lo1, hi1⟩ := q
                simp only [Bool.and_eq_true, decide_eq_true_eq] at hnext
                exact wave_low lo1 hi1 ps2 _ (by omega)
            · cases ps1 with
              | nil => trivial
              | cons q ps2 =>
                obtain ⟨lo1, hi1⟩ := q
                simp only [Bool.and_eq_true, decide_eq_true_eq] at hnext
                show 40 + 0 - hi < lo1
                omega
        obtain ⟨k, hk, hkfall, hklt⟩ := hfall0
        have hterm : ∃ s1, sample_bit hw fuel j i s = Except.ok s1 := by
          apply sample_bit_term hw fuel j i s (lo - c) k hs.1 (by omega) hk
          · intro m hm
            rw [hs.2, wave_low lo hi ps1 _ (by omega)]
          · rw [hs.2, wave_high lo hi ps1 _ (by omega) (by omega)]
          · rw [show s.now + (lo - c) + 40 + k = s.now + (lo - c + 40 + k) by omega, hs.2,
              ← hkfall]
            congr 1
            omega
        obtain ⟨s1, h1⟩ := hterm
        obtain ⟨k1, k2, _, _, hlow, hhigh, hhi2, hfall, hnow, hmode, hsam, _⟩ :=
          sample_bit_ok hw fuel j i s s1 hs.1 h1
        obtain ⟨e1, e2, h3, hl1, hval⟩ := bit_on_wave hw s lo hi ps1 c k1 k2 hs hok hhi hlow hhigh hfall
        have hk2 : k2 ≤ k := by
          by_contra hgt
          have := hhi2 k (by omega)
          rw [show s.now + k1 + 40 + k = s.now + (k1 + 40 + k) by omega, hs.2,
            show c + (k1 + 40 + k) = lo + 40 + k by omega, hkfall] at this
          simp at this
        have hlt1 : HeadLt (40 + k2 - hi) ps1 := hklt.mono (by omega)
        have hs1 : Sync hw s1 ps1 (40 + k2 - hi) := ⟨hmode, by intro x; rw [hnow]; exact h3 x⟩
        have hv := sample_value lo hi ps1 (40 + k2 - hi) (by omega) hlt1
        have hlen1 : nbits ops ≤ ps1.length := by
          simp only [nbits, List.length_cons] at hlen
          omega
        obtain ⟨s', hrun, hs'⟩ := ih ps1 s1 _ hs1 hwt1 hlt1.ok hlen1
          (fun q hq => hfuel q (List.mem_cons_of_mem _ hq))
        refine ⟨s', ?_, ?_⟩
        · simp only [step, h1, ok_bind]
          exact hrun
        · rw [hs', hsam, hval, hv]
          simp [bits_of, nbits]

/-! ## The buffer as a function of the sampled levels -/

theorem or_fold_eq_pack : ∀ b0 b1 b2 b3 b4 b5 b6 b7 : Bool,
    or_fold 0 ((List.range 8).zip [b0, b1, b2, b3, b4, b5, b6, b7]) =
      pack_byte [b0, b1, b2, b3, b4, b5, b6, b7] := by decide

theorem pack_byte_testBit : ∀ b0 b1 b2 b3 b4 b5 b6 b7 : Bool, ∀ i : Fin 8,
    Nat.testBit (pack_byte [b0, b1, b2, b3, b4, b5, b6, b7]) (7 - i.val) =
      [b0, b1, b2, b3, b4, b5, b6, b7].getD i.val false := by decide

theorem pack_byte_lt : ∀ b0 b1 b2 b3 b4 b5 b6 b7 : Bool,
    pack_byte [b0, b1, b2, b3, b4, b5, b6, b7] < 256 := by decide

theorem length_eight {α : Type} (l : List α) (h : l.length = 8) :
    ∃ a0 a1 a2 a3 a4 a5 a6 a7, l = [a0, a1, a2, a3, a4, a5, a6, a7] := by
  match l, h with
  | [a0, a1, a2, a3, a4, a5, a6, a7], _ => exact ⟨a0, a1, a2, a3, a4, a5, a6, a7, rfl⟩

theorem length_five {α : Type} (l : List α) (h : l.length = 5) :
    ∃ a0 a1 a2 a3 a4, l = [a0, a1, a2, a3, a4] := by
  match l, h with
  | [a0, a1, a2, a3, a4], _ => exact ⟨a0, a1, a2, a3, a4, rfl⟩

theorem set_self {α : Type} : ∀ (l : List α) (j : Nat) (h : j < l.length), l.set j (l.get ⟨j, h⟩) = l := by
  intro l
  induction l with
  | nil => intro j h; simp at h
  | cons a l ih =>
    intro j h
    cases j with
    | zero => rfl
    | succ j =>
      simp only [List.set_cons_succ, List.get_cons_succ]
      rw [ih j (by simpa using h)]

/-- The inner loop over any list of bit positions: byte `j` becomes the fold
of the sampled levels, the other bytes stay. -/
theorem bits_data (hw : Mock) (fuel j : Nat) :
    ∀ (l : List Nat) (s s' : State), s.mode = PinMode.input_nopull → j < s.data.length →
      l.foldlM (fun st i => sample_bit hw fuel j i st) s = Except.ok s' →
      ∃ bs, bs.length = l.length ∧ samples s'.log = samples s.log ++ bs ∧
        s'.mode = PinMode.input_nopull ∧
        s'.data = s.data.set j (or_fold (s.data.getD j 0) (l.zip bs)) := by
  intro l
  induction l with
  | nil =>
    intro s s' _ hj h
    simp only [List.foldlM_nil, pure_eq_ok, Except.ok.injEq] at h
    subst h
    refine ⟨[], rfl, by simp, by assumption, ?_⟩
    simp only [or_fold, List.getD_eq_getElem?_getD, List.getElem?_eq_getElem hj, List.zip_nil_right,
      List.foldl_nil, Option.getD_some]
    exact (set_self s.data j hj).symm
  | cons i l ih =>
    intro s s' hm hj h
    rw [List.foldlM_cons] at h
    obtain ⟨s1, h1, hrest⟩ := bind_eq_ok.1 h
    obtain ⟨k1, k2, _, _, _, _, _, _, _, hmode, hsam, hdata, _⟩ := sample_bit_ok hw fuel j i s s1 hm h1
    have hlen1 : s1.data.length = s.data.length := by
      rw [hdata]
      split <;> simp
    obtain ⟨bs, hbl, hbs, hm', hd'⟩ := ih s1 s' hmode (by omega) hrest
    refine ⟨hw.line (s.now + k1 + 40) :: bs, by simp [hbl], by rw [hbs, hsam]; simp, hm', ?_⟩
    rw [hd', hdata]
    cases hb : hw.line (s.now + k1 + 40)
    · simp [or_fold]
    · simp [or_fold, List.getD_eq_getElem?_getD, List.getElem?_set, hj]

/-- One pass of the outer loop: byte `j` becomes the packing of the eight
levels sampled, whatever it held before. -/
theorem read_byte_data (hw : Mock) (fuel j : Nat) (s s' : State)
    (hm : s.mode = PinMode.input_nopull) (hj : j < s.data.length)
    (h : read_byte hw fuel j s = Except.ok s') :
    ∃ bs, bs.length = 8 ∧ samples s'.log = samples s.log ++ bs ∧
      s'.mode = PinMode.input_nopull ∧ s'.data = s.data.set j (pack_byte bs) := by
  unfold read_byte bit_loop at h
  obtain ⟨bs, hbl, hbs, hm', hd⟩ :=
    bits_data hw fuel j (List.range 8) (clear_byte j s) s' hm (by simpa [clear_byte] using hj) h
  have hbl8 : bs.length = 8 := by simpa using hbl
  refine ⟨bs, hbl8, hbs, hm', ?_⟩
  obtain ⟨b0, b1, b2, b3, b4, b5, b6, b7, rfl⟩ := length_eight bs hbl8
  rw [hd]
  simp only [clear_byte, List.set_set, List.getD_eq_getElem?_getD, List.getElem?_set, hj,
    if_true, Option.getD_some]
  rw [or_fold_eq_pack]

/-- The sampling loop: the buffer ends as the packing of the 40 levels
sampled, whatever it held before. -/
theorem sample_loop_data (hw : Mock) (fuel : Nat) (s s' : State)
    (hm : s.mode = PinMode.input_nopull) (hlen : s.data.length = 5)
    (h : sample_loop hw fuel s = Except.ok s') :
    ∃ bs, bs.length = 40 ∧ samples s'.log = samples s.log ++ bs ∧
      s'.mode = PinMode.input_nopull ∧ s'.data = pack bs := by
  unfold sample_loop at h
  have hr : List.range 5 = [0, 1, 2, 3, 4] := by decide
  rw [hr] at h
  simp only [List.foldlM_cons, List.foldlM_nil] at h
  obtain ⟨s1, h1, h⟩ := bind_eq_ok.1 h
  obtain ⟨s2, h2, h⟩ := bind_eq_ok.1 h
  obtain ⟨s3, h3, h⟩ := bind_eq_ok.1 h
  obtain ⟨s4, h4, h⟩ := bind_eq_ok.1 h
  obtain ⟨s5, h5, h⟩ := bind_eq_ok.1 h
  simp only [pure_eq_ok, Except.ok.injEq] at h
  subst h
  obtain ⟨A, hA, hsA, hmA, hdA⟩ := read_byte_data hw fuel 0 s s1 hm (by omega) h1
  have l1 : s1.data.length = 5 := by rw [hdA]; simpa using hlen
  obtain ⟨B, hB, hsB, hmB, hdB⟩ := read_byte_data hw fuel 1 s1 s2 hmA (by omega) h2
  have l2 : s2.data.length = 5 := by rw [hdB]; simpa using l1
  obtain ⟨C, hC, hsC, hmC, hdC⟩ := read_byte_data hw fuel 2 s2 s3 hmB (by omega) h3
  have l3 : s3.data.length = 5 := by rw [hdC]; simpa using l2
  obtain ⟨D, hD, hsD, hmD, hdD⟩ := read_byte_data hw fuel 3 s3 s4 hmC (by omega) h4
  have l4 : s4.data.length = 5 := by rw [hdD]; simpa using l3
  obtain ⟨E, hE, hsE, hmE, hdE⟩ := read_byte_data hw fuel 4 s4 s5 hmD (by omega) h5
  refine ⟨A ++ (B ++ (C ++ (D ++ E))), by simp [hA, hB, hC, hD, hE], ?_, hmE, ?_⟩
  · rw [hsE, hsD, hsC, hsB, hsA]
    simp only [List.append_assoc]
  · obtain ⟨d0, d1, d2, d3, d4, hd⟩ := length_five s.data hlen
    obtain ⟨a0, a1, a2, a3, a4, a5, a6, a7, rfl⟩ := length_eight A hA
    obtain ⟨b0, b1, b2, b3, b4, b5, b6, b7, rfl⟩ := length_eight B hB
    obtain ⟨c0, c1, c2, c3, c4, c5, c6, c7, rfl⟩ := length_eight C hC
    obtain ⟨e0, e1, e2, e3, e4, e5, e6, e7, rfl⟩ := length_eight D hD
    obtain ⟨f0, f1, f2, f3, f4, f5, f6, f7, rfl⟩ := length_eight E hE
    rw [hdE, hdD, hdC, hdB, hdA, hd]
    rfl

theorem pack_length (bs : List Bool) : (pack bs).length = 5 := by
  simp [pack]

theorem pack_getD (bs : List Bool) (j : Nat) (hj : j < 5) : (pack bs).getD j 0 = pack_at bs j := by
  have h : ∀ k, k < 5 → (pack bs).getD k 0 = pack_at bs k := by
    intro k hk
    interval_cases k <;> rfl
  exact h j hj

/-- Bit `7 - i` of byte `j` of the packing is bit `8 * j + i` of the stream. -/
theorem pack_at_testBit (bs : List Bool) (j i : Nat) (hi : i < 8) :
    Nat.testBit (pack_at bs j) (7 - i) = bs.getD (8 * j + i) false := by
  unfold pack_at
  have hr : List.range 8 = [0, 1, 2, 3, 4, 5, 6, 7] := by decide
  rw [hr]
  simp only [List.map_cons, List.map_nil]
  rw [pack_byte_testBit _ _ _ _ _ _ _ _ ⟨i, hi⟩]
  interval_cases i <;> rfl

theorem pack_at_lt (bs : List Bool) (j : Nat) : pack_at bs j < 256 := by
  unfold pack_at
  have hr : List.range 8 = [0, 1, 2, 3, 4, 5, 6, 7] := by decide
  rw [hr]
  simp only [List.map_cons, List.map_nil]
  exact pack_byte_lt _ _ _ _ _ _ _ _

theorem pack_at_high_bits (bs : List Bool) (j b : Nat) (hb : 8 ≤ b) :
    Nat.testBit (pack_at bs j) b = false := by
  apply Nat.testBit_lt_two_pow
  calc pack_at bs j < 256 := pack_at_lt bs j
    _ = 2 ^ 8 := by norm_num
    _ ≤ 2 ^ b := Nat.pow_le_pow_right (by omega) hb

theorem bits_of_getD (ps : List (Nat × Nat)) (n : Nat) (h : n < ps.length) :
    (bits_of ps).getD n false = decide (40 < (ps.getD n (0, 0)).2) := by
  unfold bits_of
  simp [List.getD_eq_getElem?_getD, List.getElem?_map, List.getElem?_eq_getElem h]

/-! ## Whole runs -/

theorem head_ok_zero (ps : List (Nat × Nat)) : HeadOk 0 ps := by
  cases ps with
  | nil => trivial
  | cons p rest => exact Nat.zero_le _

theorem samples_started (hw : Mock) (s : State) : samples (started hw s).log = samples s.log := by
  simp [started, samples_append, start_events, samples]

theorem sample_times_started (hw : Mock) (s : State) :
    sample_times (started hw s).log = sample_times s.log := by
  simp [started, sample_times_append, start_events, sample_times]

theorem sync_started (hw : Mock) (s : State) (ps : List (Nat × Nat))
    (hline : ∀ x, hw.line (input_time hw s + x) = wave ps x) : Sync hw (started hw s) ps 0 := by
  refine ⟨rfl, ?_⟩
  intro x
  rw [Nat.zero_add]
  exact hline x

/-- On a well-timed train of at least 40 pulses `DHT11_Read` returns 1, having
sampled the first 40 pulses. -/
theorem read_returns (hw : Mock) (fuel : Nat) (s : State) (ps : List (Nat × Nat))
    (hwt : well_timed ps = true) (hlen : 40 ≤ ps.length)
    (hfuel : ∀ p ∈ ps, p.1 < fuel ∧ p.2 < fuel)
    (hline : ∀ x, hw.line (input_time hw s + x) = wave ps x) :
    ∃ s', DHT11_Read hw fuel s = Except.ok (1, s') ∧
      samples s'.log = samples s.log ++ (bits_of ps).take 40 := by
  obtain ⟨s', hrun, hsam⟩ := run_well_timed hw fuel prog ps (started hw s) 0
    (sync_started hw s ps hline) hwt (head_ok_zero ps) (by rw [nbits_prog]; exact hlen) hfuel
  refine ⟨s', (DHT11_Read_ok hw fuel s 1 s').2 ⟨rfl, by rw [sample_loop_flat]; exact hrun⟩, ?_⟩
  rw [hsam, samples_started, nbits_prog]

/-- A run that returns leaves in the buffer the packing of the 40 levels it
sampled. -/
theorem read_data (hw : Mock) (fuel : Nat) (s : State) (r : Nat) (s' : State)
    (hdata : s.data.length = 5) (hret : DHT11_Read hw fuel s = Except.ok (r, s')) :
    ∃ bs, bs.length = 40 ∧ samples s'.log = samples s.log ++ bs ∧ s'.data = pack bs ∧
      s'.mode = PinMode.input_nopull := by
  obtain ⟨_, hloop⟩ := (DHT11_Read_ok hw fuel s r s').1 hret
  obtain ⟨bs, hbl, hbs, hm, hd⟩ := sample_loop_data hw fuel (started hw s) s' rfl hdata hloop
  exact ⟨bs, hbl, by rw [hbs, samples_started], hd, hm⟩

/-- C1. For every train of 40 pulses (each a low part then a high part) put on the line from the
moment the pin becomes an input, whenever `DHT11_Read` returns, bit `7 - i` of `data[j]` is set
exactly when the high part of pulse `8 * j + i` lasts more than 40 ticks, and no other bit of
`data[j]` is set. -/
theorem C1_msb_first_decode (hw : Mock) (fuel : Nat) (s : State) (ps : List (Nat × Nat))
    (r : Nat) (s' : State) (hlen : ps.length = 40) (hpos : Pulses ps)
    (hdata : s.data.length = 5)
    (hline : ∀ x, hw.line (input_time hw s + x) = wave ps x)
    (hret : DHT11_Read hw fuel s = Except.ok (r, s')) :
    (∀ j, j < 5 → ∀ i, i < 8 →
      (Nat.testBit (s'.data.getD j 0) (7 - i) = true ↔ 40 < (ps.getD (8 * j + i) (0, 0)).2)) ∧
    (∀ j, j < 5 → ∀ b, 8 ≤ b → Nat.testBit (s'.data.getD j 0) b = false) ∧
    s'.data.length = 5 := by
  obtain ⟨bs, _, hbs, hd, _⟩ := read_data hw fuel s r s' hdata hret
  obtain ⟨_, hloop⟩ := (DHT11_Read_ok hw fuel s r s').1 hret
  rw [sample_loop_flat] at hloop
  have hsync := run_synced hw fuel prog ps (started hw s) 0 s' (sync_started hw s ps hline) hpos
    (head_ok_zero ps) (by rw [nbits_prog, hlen]) hloop
  rw [samples_started, hbs] at hsync
  have hbits : bs = bits_of ps := List.append_cancel_left hsync
  subst hbits
  refine ⟨?_, ?_, by rw [hd]; exact pack_length _⟩
  · intro j hj i hi
    rw [hd, pack_getD _ j hj, pack_at_testBit _ j i hi, bits_of_getD ps _ (by omega)]
    simp
  · intro j hj b hb
    rw [hd, pack_getD _ j hj]
    exact pack_at_high_bits _ j b hb

theorem demo_line (d : List Nat) (x : Nat) :
    demo_mock.line (input_time demo_mock (boot d) + x) = wave demo_pulses x := by
  have e : input_time demo_mock (boot d) + x - 18030 = x := by
    simp only [input_time, demo_mock, boot]
    omega
  simp only [demo_mock] at e ⊢
  rw [e]

theorem demo_pulses_pos : Pulses demo_pulses := by
  unfold Pulses
  decide

theorem demo_fuel : ∀ p ∈ demo_pulses, p.1 < 100 ∧ p.2 < 100 := by decide

/-- Witness for C1: the demo frame is decoded, by a run that does return. -/
theorem C1_msb_first_decode_witness :
    ∃ s', DHT11_Read demo_mock 100 (boot [7, 7, 7, 7, 7]) = Except.ok (1, s') ∧
      ((∀ j, j < 5 → ∀ i, i < 8 →
        (Nat.testBit (s'.data.getD j 0) (7 - i) = true ↔
          40 < (demo_pulses.getD (8 * j + i) (0, 0)).2)) ∧
      (∀ j, j < 5 → ∀ b, 8 ≤ b → Nat.testBit (s'.data.getD j 0) b = false) ∧
      s'.data.length = 5) := by
  obtain ⟨s', hret, _⟩ := read_returns demo_mock 100 (boot [7, 7, 7, 7, 7]) demo_pulses
    (by decide) (by decide) demo_fuel (demo_line _)
  exact ⟨s', hret, C1_msb_first_decode demo_mock 100 (boot [7, 7, 7, 7, 7]) demo_pulses 1 s'
    (by decide) demo_pulses_pos rfl (demo_line _) hret⟩

/-- On a well-timed train of at least 40 pulses `DHT11_Read` returns 1 with the
packing of the first 40 pulses in the buffer. -/
theorem read_returns_data (hw : Mock) (fuel : Nat) (s : State) (ps : List (Nat × Nat))
    (hwt : well_timed ps = true) (hlen : 40 ≤ ps.length)
    (hfuel : ∀ p ∈ ps, p.1 < fuel ∧ p.2 < fuel) (hdata : s.data.length = 5)
    (hline : ∀ x, hw.line (input_time hw s + x) = wave ps x) :
    ∃ s', DHT11_Read hw fuel s = Except.ok (1, s') ∧ s'.data = pack ((bits_of ps).take 40) := by
  obtain ⟨s', hret, hsam⟩ := read_returns hw fuel s ps hwt hlen hfuel hline
  obtain ⟨bs, _, hbs, hd, _⟩ := read_data hw fuel s 1 s' hdata hret
  rw [hbs] at hsam
  have hb : bs = (bits_of ps).take 40 := List.append_cancel_left hsam
  exact ⟨s', hret, by rw [hd, hb]⟩

/-- C5. For every well-timed 40-pulse stream, whatever the relation between its fifth byte and the
sum of the first four, `DHT11_Read` returns 1 and leaves the five decoded bytes in the buffer;
byte 4 holds bits 32 to 39 of the stream, first bit on top. -/
theorem C5_checksum_not_validated (hw : Mock) (fuel : Nat) (s : State) (ps : List (Nat × Nat))
    (hlen : ps.length = 40) (hwt : well_timed ps = true)
    (hfuel : ∀ p ∈ ps, p.1 < fuel ∧ p.2 < fuel) (hdata : s.data.length = 5)
    (hline : ∀ x, hw.line (input_time hw s + x) = wave ps x) :
    ∃ s', DHT11_Read hw fuel s = Except.ok (1, s') ∧ s'.data = pack (bits_of ps) ∧
      (∀ i, i < 8 →
        (Nat.testBit (s'.data.getD 4 0) (7 - i) = true ↔ 40 < (ps.getD (32 + i) (0, 0)).2)) := by
  obtain ⟨s', hret, hd⟩ := read_returns_data hw fuel s ps hwt (by omega) hfuel hdata hline
  have ht : (bits_of ps).take 40 = bits_of ps :=
    List.take_of_length_le (by simp [bits_of, hlen])
  rw [ht] at hd
  refine ⟨s', hret, hd, ?_⟩
  intro i hi
  rw [hd, pack_getD _ 4 (by omega), pack_at_testBit _ 4 i hi, bits_of_getD ps _ (by omega)]
  simp

/-- Witness for C5: the demo frame carries a fifth byte, 99, that is not the
sum 79 of the other four; the run returns 1 with all five bytes as sent. -/
theorem C5_checksum_not_validated_witness :
    checksum_ok [55, 0, 24, 0, 99] = false ∧
    ∃ s', DHT11_Read demo_mock 100 (boot [7, 7, 7, 7, 7]) = Except.ok (1, s') ∧
      s'.data = [55, 0, 24, 0, 99] := by
  refine ⟨by decide, ?_⟩
  obtain ⟨s', hret, hd, _⟩ := C5_checksum_not_validated demo_mock 100 (boot [7, 7, 7, 7, 7])
    demo_pulses (by decide) (by decide) demo_fuel rfl (demo_line _)
  refine ⟨s', hret, ?_⟩
  rw [hd]
  decide

/-- A run of a list of steps that returns has added one sample per bit step. -/
theorem run_samples (hw : Mock) (fuel : Nat) :
    ∀ (ops : List Op) (s s' : State), s.mode = PinMode.input_nopull →
      ops.foldlM (step hw fuel) s = Except.ok s' →
      ∃ tb tt, tb.length = nbits ops ∧ tt.length = nbits ops ∧
        samples s'.log = samples s.log ++ tb ∧ sample_times s'.log = sample_times s.log ++ tt := by
  intro ops
  induction ops with
  | nil =>
    intro s s' _ h
    simp only [List.foldlM_nil, pure_eq_ok, Except.ok.injEq] at h
    subst h
    exact ⟨[], [], rfl, rfl, by simp, by simp⟩
  | cons op ops ih =>
    intro s s' hm h
    rw [List.foldlM_cons] at h
    cases op with
    | clear j =>
      simp only [step, ok_bind] at h
      exact ih (clear_byte j s) s' hm h
    | bit j i =>
      simp only [step] at h
      obtain ⟨s1, h1, hrest⟩ := bind_eq_ok.1 h
      obtain ⟨k1, k2, _, _, _, _, _, _, _, hmode, hsam, _, htim⟩ :=
        sample_bit_ok hw fuel j i s s1 hm h1
      obtain ⟨tb, tt, hb, ht, hs, hst⟩ := ih s1 s' hmode hrest
      refine ⟨hw.line (s.now + k1 + 40) :: tb, (s.now + k1 + 40) :: tt, by simp [nbits, hb],
        by simp [nbits, ht], ?_, ?_⟩
      · rw [hs, hsam]
        simp
      · rw [hst, htim]
        simp

theorem demo_ack_line (d : List Nat) (x : Nat) :
    demo_ack_mock.line (input_time demo_ack_mock (boot d) + x) = wave demo_ack_pulses x := by
  have e : input_time demo_ack_mock (boot d) + x - 18030 = x := by
    simp only [input_time, demo_ack_mock, boot]
    omega
  simp only [demo_ack_mock] at e ⊢
  rw [e]

/-- C8. `DHT11_Read` goes from the switch to input mode straight into bit sampling: the first
sample is taken 40 ticks after the first tick at which the line is seen high, and is stored as
bit 7 of `data[0]`; on a train that opens with an acknowledgment pulse followed by a 40-pulse
frame, the buffer holds the acknowledgment's sample followed by the first 39 bits of the frame. -/
theorem C8_ack_not_skipped :
    (∀ (hw : Mock) (fuel : Nat) (s : State) (r : Nat) (s' : State) (k : Nat),
      s.data.length = 5 →
      (∀ m, m < k → hw.line (input_time hw s + m) = false) →
      hw.line (input_time hw s + k) = true →
      DHT11_Read hw fuel s = Except.ok (r, s') →
      (∃ tt, tt.length = 39 ∧
        sample_times s'.log = sample_times s.log ++ (input_time hw s + k + 40) :: tt) ∧
      (∃ tb, tb.length = 39 ∧
        samples s'.log = samples s.log ++ hw.line (input_time hw s + k + 40) :: tb) ∧
      Nat.testBit (s'.data.getD 0 0) 7 = hw.line (input_time hw s + k + 40)) ∧
    (∀ (hw : Mock) (fuel : Nat) (s : State) (ack : Nat × Nat) (frame : List (Nat × Nat)),
      frame.length = 40 → well_timed (ack :: frame) = true →
      (∀ p ∈ ack :: frame, p.1 < fuel ∧ p.2 < fuel) → s.data.length = 5 →
      (∀ x, hw.line (input_time hw s + x) = wave (ack :: frame) x) →
      ∃ s', DHT11_Read hw fuel s = Except.ok (1, s') ∧
        s'.data = pack (decide (40 < ack.2) :: (bits_of frame).take 39)) := by
  constructor
  · intro hw fuel s r s' k hdata hlow hhigh hret
    obtain ⟨bs, _, hbs, hd, _⟩ := read_data hw fuel s r s' hdata hret
    obtain ⟨_, hloop⟩ := (DHT11_Read_ok hw fuel s r s').1 hret
    rw [sample_loop_flat] at hloop
    have hp : prog = Op.clear 0 :: Op.bit 0 0 :: prog.drop 2 := by decide
    rw [hp, List.foldlM_cons] at hloop
    simp only [step, ok_bind] at hloop
    rw [List.foldlM_cons] at hloop
    simp only [step] at hloop
    obtain ⟨s1, h1, hrest⟩ := bind_eq_ok.1 hloop
    obtain ⟨k1, k2, _, _, hlow1, hhigh1, _, _, _, hmode, hsam, _, htim⟩ :=
      sample_bit_ok hw fuel 0 0 (clear_byte 0 (started hw s)) s1 rfl h1
    have hnow : (clear_byte 0 (started hw s)).now = input_time hw s := rfl
    have hlog : (clear_byte 0 (started hw s)).log = (started hw s).log := rfl
    rw [hnow] at hlow1 hhigh1 hsam htim
    rw [hlog, samples_started] at hsam
    rw [hlog, sample_times_started] at htim
    have hk : k1 = k := by
      rcases Nat.lt_trichotomy k1 k with hlt | heq | hgt
      · have := hlow k1 hlt
        simp [this] at hhigh1
      · exact heq
      · have := hlow1 k hgt
        simp [this] at hhigh
    subst hk
    obtain ⟨tb, tt, htb, htt, hs2, ht2⟩ := run_samples hw fuel (prog.drop 2) s1 s' hmode hrest
    have hn : nbits (prog.drop 2) = 39 := by decide
    rw [hn] at htb htt
    rw [hsam] at hs2
    rw [htim] at ht2
    refine ⟨⟨tt, htt, by rw [ht2]; simp⟩, ⟨tb, htb, by rw [hs2]; simp⟩, ?_⟩
    rw [hbs] at hs2
    have hb : bs = hw.line (input_time hw s + k1 + 40) :: tb := by
      have e : samples s.log ++ bs = samples s.log ++ (hw.line (input_time hw s + k1 + 40) :: tb) := by
        rw [hs2]
        simp
      exact List.append_cancel_left e
    rw [hd, pack_getD _ 0 (by omega)]
    have := pack_at_testBit bs 0 0 (by omega)
    rw [hb] at this ⊢
    simpa using this
  · intro hw fuel s ack frame hlen hwt hfuel hdata hline
    obtain ⟨s', hret, hd⟩ := read_returns_data hw fuel s (ack :: frame) hwt
      (by simp [hlen]) hfuel hdata hline
    refine ⟨s', hret, ?_⟩
    rw [hd]
    simp [bits_of]

/-- Witness for C8: with the acknowledgment pulse in front of the demo frame
the run returns, its first sample is taken at tick 18030 + 80 + 40, and the
buffer is the frame shifted by one bit, not the frame. -/
theorem C8_ack_not_skipped_witness :
    ∃ s', DHT11_Read demo_ack_mock 100 (boot [7, 7, 7, 7, 7]) = Except.ok (1, s') ∧
      s'.data = [155, 128, 12, 0, 49] ∧
      (∃ tt, sample_times s'.log = 18150 :: tt) ∧
      Nat.testBit (s'.data.getD 0 0) 7 = true ∧
      pack (bits_of demo_pulses) = [55, 0, 24, 0, 99] := by
  obtain ⟨s', hret, hd⟩ := C8_ack_not_skipped.2 demo_ack_mock 100 (boot [7, 7, 7, 7, 7]) (80, 80)
    demo_pulses (by decide) (by decide) (by decide) rfl (demo_ack_line _)
  obtain ⟨⟨tt, _, ht⟩, _, hb⟩ := C8_ack_not_skipped.1 demo_ack_mock 100 (boot [7, 7, 7, 7, 7]) 1 s' 80
    rfl (by
      intro m hm
      rw [demo_ack_line]
      exact wave_low 80 80 demo_pulses m hm) (by
      rw [demo_ack_line]
      exact wave_high 80 80 demo_pulses 80 (by omega) (by omega)) hret
  refine ⟨s', hret, by rw [hd]; decide, ⟨tt, by simpa [input_time, demo_ack_mock, boot, sample_times] using ht⟩, ?_, by decide⟩
  rw [hb, Nat.add_assoc, demo_ack_line]
  decide

/-- C9. `delay_us(us)` zeroes the counter and spins until the counter is no longer below `us`: with
a counter that goes up by one per poll it returns, for every 16-bit `us`, at the poll that reads
`us`, after `us` unsuccessful polls and not earlier; `delay_us(0)` returns at its first poll; and
when the counter never reaches `us`, as with a counter wrapping at a period of at most `us`, the
call never returns. -/
theorem C9_delay_us_spin :
    (∀ us fuel, us < 65536 →
      delay_us (fun c => c + 1) us fuel = if us < fuel then some (us, us) else none) ∧
    (∀ us fuel, us < 65536 →
      delay_us tim_tick us fuel = if us < fuel then some (us, us) else none) ∧
    (∀ tick, delay_us tick 0 1 = some (0, 0)) ∧
    (∀ tick us, (∀ k, tick^[k] 0 < us) → ∀ fuel, delay_us tick us fuel = none) ∧
    (∀ period us, 0 < period → period ≤ us →
      ∀ fuel, delay_us (fun c => (c + 1) % period) us fuel = none) := by
  refine ⟨?_, ?_, ?_, ?_, ?_⟩
  · intro us fuel _
    unfold delay_us
    rw [delay_us_spin_count _ us (fun c _ => rfl) fuel 0 0 (Nat.zero_le _)]
    simp
  · intro us fuel h
    unfold delay_us
    rw [delay_us_spin_count tim_tick us _ fuel 0 0 (Nat.zero_le _)]
    · simp
    · intro c hc
      unfold tim_tick
      exact Nat.mod_eq_of_lt (by omega)
  · intro tick
    rfl
  · intro tick us h fuel
    exact delay_us_spin_never tick us fuel 0 0 h
  · intro period us hp hle fuel
    apply delay_us_spin_never
    intro k
    exact Nat.lt_of_lt_of_le (iterate_wrap_lt period hp k) hle

/-- Witness for C9: `delay_us(40)` needs 41 polls; a counter wrapping at 30
never lets `delay_us(40)` return. -/
theorem C9_delay_us_spin_witness :
    delay_us (fun c => c + 1) 40 41 = some (40, 40) ∧
    delay_us (fun c => c + 1) 40 40 = none ∧
    delay_us tim_tick 65535 65536 = some (65535, 65535) ∧
    delay_us (fun c => (c + 1) % 30) 40 1000 = none := by
  refine ⟨?_, ?_, ?_, ?_⟩
  · rw [C9_delay_us_spin.1 40 41 (by omega)]
    rfl
  · rw [C9_delay_us_spin.1 40 40 (by omega)]
    rfl
  · rw [C9_delay_us_spin.2.1 65535 65536 (by omega)]
    rfl
  · exact C9_delay_us_spin.2.2.2.2 30 40 (by omega) (by omega) 1000

/-! ## The recorded trace of a run -/

theorem ext_step (hw : Mock) (fuel : Nat) (op : Op) (hop : op_ok op = true) (s : State) :
    Ext s (res_state (step hw fuel s op)) := by
  cases op with
  | clear j =>
    simp only [op_ok, decide_eq_true_eq] at hop
    exact ext_clear j hop s
  | bit j i =>
    simp only [op_ok, Bool.and_eq_true, decide_eq_true_eq] at hop
    exact ext_sample_bit hw fuel j i hop.1 hop.2 s

theorem prog_head : prog = Op.clear 0 :: Op.bit 0 0 :: prog.drop 2 := by decide

theorem prog_tail_ok : ∀ op ∈ prog.drop 2, op_ok op = true := by decide

/-- With no fuel at all the sampling loop stops before its first poll. -/
theorem sample_loop_zero (hw : Mock) (s : State) :
    sample_loop hw 0 s = Except.error (Loc.wait_low 0 0, clear_byte 0 s) := by
  rw [sample_loop_flat, prog_head, List.foldlM_cons]
  simp only [step, ok_bind]
  rw [List.foldlM_cons]
  rfl

/-- With some fuel the first thing the sampling loop does to the pin is the
first poll of line 48, and all else follows that poll. -/
theorem sample_loop_first (hw : Mock) (n : Nat) (s : State) :
    Ext (HAL_GPIO_ReadPin hw Site.wait_low (clear_byte 0 s)).2 (res_state (sample_loop hw (n + 1) s)) := by
  rw [sample_loop_flat, prog_head, List.foldlM_cons]
  simp only [step, ok_bind]
  rw [List.foldlM_cons]
  apply ext_bind
  · apply ext_sample_bit_from hw (n + 1) 0 0 (by omega) (by omega)
    rw [wait_while_low_eq]
    unfold spin
    split
    · exact Ext.trans (ext_tick _) (ext_spin _ _ _ _ _ _)
    · exact Ext.refl _
  · intro a _
    exact ext_foldlM _ _ (fun op hop st => ext_step hw (n + 1) op (prog_tail_ok op hop) st) a

/-- The trace of any run, finished or not: the six actions of the start
signal, then reads and 40 us delays only, the first of them a poll of line 48
at the tick of the switch to input. -/
theorem run_trace (hw : Mock) (fuel : Nat) (s : State) :
    ∃ rest, (end_state (DHT11_Read hw fuel s)).log.reverse =
        s.log.reverse ++ start_events s.now hw.hal_extra ++ rest ∧
      (∀ e ∈ rest, QuietEvent (input_time hw s) e) ∧
      (rest = [] ∨ ∃ lvl tail, rest = (input_time hw s, Event.read Site.wait_low lvl) :: tail) ∧
      (end_state (DHT11_Read hw fuel s)).mode = PinMode.input_nopull := by
  rw [end_state_eq]
  cases fuel with
  | zero =>
    rw [sample_loop_zero]
    refine ⟨[], ?_, by simp, Or.inl rfl, rfl⟩
    simp [res_state, clear_byte, started]
  | succ n =>
    have hext := sample_loop_first hw n (started hw s)
    obtain ⟨evs, hlog, hq⟩ := hext.log
    refine ⟨(input_time hw s, Event.read Site.wait_low
      (gpio_level hw (clear_byte 0 (started hw s)))) :: evs.reverse, ?_, ?_, Or.inr ⟨_, _, rfl⟩, ?_⟩
    · rw [hlog]
      simp [HAL_GPIO_ReadPin, clear_byte, started]
    · intro e he
      rcases List.mem_cons.1 he with h | h
      · subst h
        exact ⟨Nat.le_refl _, Or.inr ⟨_, _, rfl⟩⟩
      · exact hq e (List.mem_reverse.1 h)
    · rw [hext.mode]
      rfl

/-- C2. In every run of `DHT11_Read`, finished or still spinning, the recorded pin and timer actions
open with exactly: configure as output, write low, `HAL_Delay(18)`, write high (at least 18000
ticks after the write low), `delay_us(30)`, configure as input (exactly 30 ticks after the write
high); nothing but reads and 40 us delays follows, none earlier than the switch to input, and the
first of them is the first read of the line. -/
theorem C2_start_signal (hw : Mock) (fuel : Nat) (s : State) :
    ∃ rest, (end_state (DHT11_Read hw fuel s)).log.reverse =
        s.log.reverse ++
          [(s.now, Event.set_output), (s.now, Event.write false), (s.now, Event.hal_delay 18),
           (s.now + 18000 + hw.hal_extra, Event.write true),
           (s.now + 18000 + hw.hal_extra, Event.delay_us 30),
           (s.now + 18000 + hw.hal_extra + 30, Event.set_input)] ++ rest ∧
      (∀ e ∈ rest, s.now + 18000 + hw.hal_extra + 30 ≤ e.1 ∧
        (e.2 = Event.delay_us 40 ∨ ∃ site lvl, e.2 = Event.read site lvl)) ∧
      (rest = [] ∨ ∃ lvl tail,
        rest = (s.now + 18000 + hw.hal_extra + 30, Event.read Site.wait_low lvl) :: tail) ∧
      s.now + 18000 ≤ s.now + 18000 + hw.hal_extra := by
  obtain ⟨rest, hlog, hq, hfirst, _⟩ := run_trace hw fuel s
  have ht : input_time hw s = s.now + 18000 + hw.hal_extra + 30 := by
    unfold input_time
    omega
  rw [ht] at hq hfirst
  refine ⟨rest, ?_, hq, hfirst, Nat.le_add_right _ _⟩
  rw [hlog]
  rfl

theorem mode_changes_quiet (t : Nat) :
    ∀ rest : List (Nat × Event), (∀ e ∈ rest, QuietEvent t e) →
      (rest.map Prod.snd).filter (fun e => decide (e = Event.set_output ∨ e = Event.set_input)) = [] := by
  intro rest h
  rw [List.filter_eq_nil_iff]
  intro e he
  obtain ⟨p, hp, rfl⟩ := List.mem_map.1 he
  rcases (h p hp).2 with h1 | ⟨site, lvl, h1⟩ <;> simp [h1]

/-- C6. When `DHT11_Read` has returned the pin is a floating input: the last recorded change of
mode is `set_input`, and from the switch to input on the run recorded only reads and 40 us delays,
no reconfiguration of the pin and no write to it. -/
theorem C6_pin_left_as_input (hw : Mock) (fuel : Nat) (s : State) (r : Nat) (s' : State)
    (hret : DHT11_Read hw fuel s = Except.ok (r, s')) :
    s'.mode = PinMode.input_nopull ∧
    (mode_changes s'.log).getLast? = some Event.set_input ∧
    ∃ rest, s'.log.reverse = s.log.reverse ++ start_events s.now hw.hal_extra ++ rest ∧
      ∀ e ∈ rest, e.2 ≠ Event.set_output ∧ e.2 ≠ Event.set_input ∧ ∀ lvl, e.2 ≠ Event.write lvl := by
  obtain ⟨rest, hlog, hq, _, hmode⟩ := run_trace hw fuel s
  rw [hret] at hlog hmode
  simp only [end_state] at hlog hmode
  refine ⟨hmode, ?_, rest, hlog, ?_⟩
  · unfold mode_changes
    rw [hlog, List.map_append, List.map_append, List.filter_append, List.filter_append,
      mode_changes_quiet _ rest hq]
    simp [start_events]
  · intro e he
    rcases (hq e he).2 with h1 | ⟨site, lvl, h1⟩ <;> simp [h1]

/-- Witness for C6: the run on the demo frame returns and leaves the pin an
input. -/
theorem C6_pin_left_as_input_witness :
    ∃ s', DHT11_Read demo_mock 100 (boot [7, 7, 7, 7, 7]) = Except.ok (1, s') ∧
      s'.mode = PinMode.input_nopull ∧ (mode_changes s'.log).getLast? = some Event.set_input := by
  obtain ⟨s', hret, _⟩ := read_returns demo_mock 100 (boot [7, 7, 7, 7, 7]) demo_pulses
    (by decide) (by decide) demo_fuel (demo_line _)
  have h := C6_pin_left_as_input demo_mock 100 (boot [7, 7, 7, 7, 7]) 1 s' hret
  exact ⟨s', hret, h.1, h.2.1⟩

/-- C3. If the line is low at every tick from the switch to input on, `DHT11_Read` does not return:
whatever the fuel, the run is spinning in the wait-while-low of byte 0, bit 0, having polled
`fuel` times, sampled nothing and written nothing but the clearing of `data[0]`. -/
theorem C3_never_rises_never_returns (hw : Mock) (fuel : Nat) (s : State)
    (hlow : ∀ t, input_time hw s ≤ t → hw.line t = false) :
    ∃ st, DHT11_Read hw fuel s = Except.error (Loc.wait_low 0 0, st) ∧
      st.now = input_time hw s + fuel ∧ samples st.log = samples s.log ∧
      st.mem = MemOp.assign 0 0 :: s.mem := by
  have hm : (clear_byte 0 (started hw s)).mode = PinMode.input_nopull := rfl
  obtain ⟨st, hst⟩ := spin_stuck hw Site.wait_low false (Loc.wait_low 0 0) fuel
    (clear_byte 0 (started hw s)) hm (fun m _ => hlow _ (Nat.le_add_right _ _))
  obtain ⟨_, _, hnow, _, hmem, _, hsam⟩ :=
    spin_error hw Site.wait_low false (Loc.wait_low 0 0) (by decide) fuel _ _ hm hst
  refine ⟨st, ?_, hnow, ?_, hmem⟩
  · rw [DHT11_Read_eq, sample_loop_flat, prog_head, List.foldlM_cons]
    simp only [step, ok_bind]
    rw [List.foldlM_cons]
    simp only [step, sample_bit]
    rw [wait_while_low_eq, hst]
    rfl
  · rw [hsam]
    exact samples_started hw s

/-- Witness for C3: a line tied low; with fuel 1000 the run is still in the
first spin. -/
theorem C3_never_rises_never_returns_witness :
    ∃ st, DHT11_Read { line := fun _ => false, hal_extra := 0 } 1000 (boot [7, 7, 7, 7, 7]) =
        Except.error (Loc.wait_low 0 0, st) ∧
      st.now = 19030 ∧ samples st.log = [] := by
  obtain ⟨st, h, hnow, hsam, _⟩ := C3_never_rises_never_returns
    { line := fun _ => false, hal_extra := 0 } 1000 (boot [7, 7, 7, 7, 7]) (fun _ _ => rfl)
  exact ⟨st, h, hnow, hsam⟩

theorem bit_mask_pow (i : Nat) (hi : i < 8) : bit_mask i = 2 ^ (7 - i) := by
  have h : ∀ k, k < 8 → bit_mask k = 2 ^ (7 - k) := by decide
  exact h i hi

theorem bit_mask_inj : ∀ i k, i < 8 → k < 8 → i ≠ k → bit_mask i ≠ bit_mask k := by
  have h : ∀ i, i < 8 → ∀ k, k < 8 → i ≠ k → bit_mask i ≠ bit_mask k := by decide
  intro i k hi hk
  exact h i hi k hk

/-- One pass of line 51 sets bit `7 - i` of byte `j` and changes nothing else
in the buffer. -/
theorem or_bit_effect (j i : Nat) (s : State) (hj : j < 5) (hi : i < 8)
    (hlen : s.data.length = 5) (hbytes : ∀ v ∈ s.data, v < 256) :
    (∀ k, k ≠ j → (or_bit j i s).data.getD k 0 = s.data.getD k 0) ∧
    (∀ b, Nat.testBit ((or_bit j i s).data.getD j 0) b =
      (Nat.testBit (s.data.getD j 0) b || decide (b = 7 - i))) := by
  have hjl : j < s.data.length := by omega
  have hv : s.data.getD j 0 < 256 := by
    rw [List.getD_eq_getElem?_getD, List.getElem?_eq_getElem hjl]
    exact hbytes _ (List.getElem_mem _)
  constructor
  · intro k hk
    simp only [or_bit, List.getD_eq_getElem?_getD]
    rw [List.getElem?_set_ne (Ne.symm hk)]
  · intro b
    simp only [or_bit, List.getD_eq_getElem?_getD, List.getElem?_set, hjl, if_true,
      Option.getD_some]
    rw [show (256 : Nat) = 2 ^ 8 from rfl, Nat.testBit_mod_two_pow, Nat.testBit_or,
      bit_mask_pow i hi, Nat.testBit_two_pow]
    have hv2 : (s.data[j]?.getD 0) < 256 := by simpa [List.getD_eq_getElem?_getD] using hv
    by_cases hb : b < 8
    · simp only [hb, decide_True, Bool.true_and]
      congr 1
      simp only [decide_eq_decide]
      omega
    · have h1 : Nat.testBit (s.data[j]?.getD 0) b = false := by
        apply Nat.testBit_lt_two_pow
        calc s.data[j]?.getD 0 < 256 := hv2
          _ = 2 ^ 8 := rfl
          _ ≤ 2 ^ b := Nat.pow_le_pow_right (by omega) (by omega)
      have h2 : decide (b = 7 - i) = false := by
        simp only [decide_eq_false_iff_not]
        omega
      simp [hb, h1, h2]

/-- C10. In every run of `DHT11_Read`, finished or still spinning, every write to the buffer is at
an index below 5, every shift amount `7 - i` lies between 0 and 7, every mask `1 << (7 - i)` is one
of 128, 64, 32, 16, 8, 4, 2, 1 and below 256; the masks of the eight bit positions are pairwise
distinct, an or with the mask changes bit `7 - i` of byte `j` and nothing else, and after a run
that returned bit `7 - i` of byte `j` is the level of sample `8 * j + i`. -/
theorem C10_writes_in_bounds :
    (∀ (hw : Mock) (fuel : Nat) (s : State),
      ∃ ops, (end_state (DHT11_Read hw fuel s)).mem = ops ++ s.mem ∧
        ∀ op ∈ ops, match op with
          | MemOp.assign j v => j < 5 ∧ v = 0
          | MemOp.or_assign j shift mask =>
            j < 5 ∧ 0 ≤ shift ∧ shift ≤ 7 ∧ mask = 1 <<< shift.toNat ∧
              mask ∈ [128, 64, 32, 16, 8, 4, 2, 1] ∧ mask < 256) ∧
    (∀ i, i < 8 → 0 ≤ bit_shift i ∧ bit_shift i ≤ 7 ∧
      bit_mask i ∈ [128, 64, 32, 16, 8, 4, 2, 1] ∧ bit_mask i < 256) ∧
    (∀ i k, i < 8 → k < 8 → i ≠ k → bit_mask i ≠ bit_mask k) ∧
    (∀ (j i : Nat) (s : State), j < 5 → i < 8 → s.data.length = 5 → (∀ v ∈ s.data, v < 256) →
      (∀ k, k ≠ j → (or_bit j i s).data.getD k 0 = s.data.getD k 0) ∧
      (∀ b, Nat.testBit ((or_bit j i s).data.getD j 0) b =
        (Nat.testBit (s.data.getD j 0) b || decide (b = 7 - i)))) ∧
    (∀ (hw : Mock) (fuel : Nat) (s : State) (r : Nat) (s' : State), s.data.length = 5 →
      DHT11_Read hw fuel s = Except.ok (r, s') →
      ∃ bs, bs.length = 40 ∧ samples s'.log = samples s.log ++ bs ∧
        ∀ j, j < 5 → ∀ i, i < 8 →
          Nat.testBit (s'.data.getD j 0) (7 - i) = bs.getD (8 * j + i) false) := by
  refine ⟨?_, ?_, bit_mask_inj, or_bit_effect, ?_⟩
  · intro hw fuel s
    rw [end_state_eq]
    obtain ⟨ops, hmem, hok⟩ := (ext_sample_loop hw fuel (started hw s)).mem
    refine ⟨ops, hmem, ?_⟩
    intro op hop
    have := hok op hop
    cases op with
    | assign j v => exact this
    | or_assign j shift mask => exact this
  · intro i hi
    exact ⟨(bit_shift_range i hi).1, (bit_shift_range i hi).2, bit_mask_mem i hi, bit_mask_lt i hi⟩
  · intro hw fuel s r s' hdata hret
    obtain ⟨bs, hbl, hbs, hd, _⟩ := read_data hw fuel s r s' hdata hret
    refine ⟨bs, hbl, hbs, ?_⟩
    intro j hj i hi
    rw [hd, pack_getD _ j hj, pack_at_testBit _ j i hi]

/-- Witness for C10: the mask of bit position 2 is 32, distinct from that of
position 5; or-ing it into a zeroed byte 1 gives 32 and leaves byte 0 alone. -/
theorem C10_writes_in_bounds_witness :
    bit_shift 2 = 5 ∧ bit_mask 2 = 32 ∧ bit_mask 2 ≠ bit_mask 5 ∧
    (or_bit 1 2 (boot [9, 0, 0, 0, 0])).data = [9, 32, 0, 0, 0] ∧
    (∀ b, Nat.testBit ((or_bit 1 2 (boot [9, 0, 0, 0, 0])).data.getD 1 0) b =
      (Nat.testBit ((boot [9, 0, 0, 0, 0]).data.getD 1 0) b || decide (b = 7 - 2))) := by
  refine ⟨by decide, by decide, C10_writes_in_bounds.2.2.1 2 5 (by omega) (by omega) (by omega),
    by decide, ?_⟩
  exact (C10_writes_in_bounds.2.2.2.1 1 2 (boot [9, 0, 0, 0, 0]) (by omega) (by omega) rfl
    (by decide)).2

/-! ## The buffer's old contents do not matter -/

theorem same_level (hw : Mock) {a b : State} (h : same_but_data a b) :
    gpio_level hw a = gpio_level hw b := by
  obtain ⟨h1, h2, h3, _, _⟩ := h
  unfold gpio_level
  rw [h1, h2, h3]

theorem rel_spin (hw : Mock) (site : Site) (lvl : Bool) (loc : Loc) :
    ∀ fuel a b, same_but_data a b →
      Rel (spin hw site lvl loc fuel a) (spin hw site lvl loc fuel b) := by
  intro fuel
  induction fuel with
  | zero => intro a b h; exact ⟨rfl, h⟩
  | succ n ih =>
    intro a b h
    unfold spin
    have hl := same_level hw h
    rw [hl]
    obtain ⟨h1, h2, h3, h4, h5⟩ := h
    split
    · apply ih
      exact ⟨by simp [spin_tick, HAL_GPIO_ReadPin, h1], h2, h3,
        by simp [spin_tick, HAL_GPIO_ReadPin, h1, h4, hl], h5⟩
    · exact ⟨h1, h2, h3, by simp [HAL_GPIO_ReadPin, h1, h4, hl], h5⟩

theorem rel_bind {x y : Except Stuck State} {f g : State → Except Stuck State} (h : Rel x y)
    (hfg : ∀ a b, same_but_data a b → Rel (f a) (g b)) : Rel (x >>= f) (y >>= g) := by
  cases x with
  | error e =>
    cases y with
    | error e2 => exact h
    | ok b => exact (h.elim)
  | ok a =>
    cases y with
    | error e2 => exact (h.elim)
    | ok b => exact hfg a b h

theorem rel_delay (us : Nat) {a b : State} (h : same_but_data a b) :
    Rel (delay_us_call us a) (delay_us_call us b) := by
  obtain ⟨h1, h2, h3, h4, h5⟩ := h
  unfold delay_us_call
  cases delay_us tim_tick us 65536 with
  | none => exact ⟨rfl, h1, h2, h3, h4, h5⟩
  | some p => exact ⟨by simp [h1], h2, h3, by simp [h1, h4], h5⟩

theorem rel_sample_bit (hw : Mock) (fuel j i : Nat) {a b : State} (h : same_but_data a b) :
    Rel (sample_bit hw fuel j i a) (sample_bit hw fuel j i b) := by
  unfold sample_bit
  rw [wait_while_low_eq, wait_while_low_eq]
  apply rel_bind (rel_spin hw _ _ _ fuel a b h)
  intro a1 b1 h1
  apply rel_bind (rel_delay 40 h1)
  intro a2 b2 h2
  rw [wait_while_high_eq, wait_while_high_eq]
  apply rel_spin
  have hl := same_level hw h2
  obtain ⟨e1, e2, e3, e4, e5⟩ := h2
  simp only [HAL_GPIO_ReadPin, hl]
  split
  · exact ⟨e1, e2, e3, by simp [or_bit, e1, e4], by simp [or_bit, e5]⟩
  · exact ⟨e1, e2, e3, by simp [e1, e4], e5⟩

theorem rel_foldlM {ι : Type} (f : State → ι → Except Stuck State)
    (hf : ∀ x a b, same_but_data a b → Rel (f a x) (f b x)) :
    ∀ (l : List ι) (a b : State), same_but_data a b → Rel (l.foldlM f a) (l.foldlM f b) := by
  intro l
  induction l with
  | nil => intro a b h; exact h
  | cons x xs ih =>
    intro a b h
    rw [List.foldlM_cons, List.foldlM_cons]
    exact rel_bind (hf x a b h) ih

theorem rel_sample_loop (hw : Mock) (fuel : Nat) {a b : State} (h : same_but_data a b) :
    Rel (sample_loop hw fuel a) (sample_loop hw fuel b) := by
  unfold sample_loop
  apply rel_foldlM _ _ _ a b h
  intro j a1 b1 h1
  unfold read_byte bit_loop
  apply rel_foldlM
  · intro i a2 b2 h2
    exact rel_sample_bit hw fuel j i h2
  · obtain ⟨e1, e2, e3, e4, e5⟩ := h1
    exact ⟨e1, e2, e3, e4, by simp [clear_byte, e5]⟩

theorem state_eq {a b : State} (h : same_but_data a b) (hd : a.data = b.data) : a = b := by
  obtain ⟨h1, h2, h3, h4, h5⟩ := h
  cases a
  cases b
  simp only at h1 h2 h3 h4 h5 hd
  subst h1 h2 h3 h4 h5 hd
  rfl

/-- C7. The buffer is overwritten on each read: with the same line and any other initial contents
of `data[0..4]`, a run that returns does so with the same value and the same final state, and its
buffer is the packing of the 40 levels it sampled. -/
theorem C7_buffer_overwritten (hw : Mock) (fuel : Nat) (s : State) (d : List Nat) (r : Nat)
    (s' : State) (hlen : s.data.length = 5) (hd : d.length = 5)
    (hret : DHT11_Read hw fuel s = Except.ok (r, s')) :
    DHT11_Read hw fuel { s with data := d } = Except.ok (r, s') ∧
    ∃ bs, bs.length = 40 ∧ samples s'.log = samples s.log ++ bs ∧ s'.data = pack bs := by
  obtain ⟨bs, hbl, hbs, hdat, _⟩ := read_data hw fuel s r s' hlen hret
  refine ⟨?_, bs, hbl, hbs, hdat⟩
  obtain ⟨hr, hloop⟩ := (DHT11_Read_ok hw fuel s r s').1 hret
  have hrel : Rel (sample_loop hw fuel (started hw s))
      (sample_loop hw fuel (started hw { s with data := d })) :=
    rel_sample_loop hw fuel ⟨rfl, rfl, rfl, rfl, rfl⟩
  rw [hloop] at hrel
  cases h2 : sample_loop hw fuel (started hw { s with data := d }) with
  | error e =>
    rw [h2] at hrel
    exact hrel.elim
  | ok s2 =>
    rw [h2] at hrel
    have hret2 : DHT11_Read hw fuel { s with data := d } = Except.ok (r, s2) :=
      (DHT11_Read_ok hw fuel _ r s2).2 ⟨hr, h2⟩
    obtain ⟨bs2, _, hbs2, hdat2, _⟩ := read_data hw fuel { s with data := d } r s2 hd hret2
    have hlog : s'.log = s2.log := hrel.2.2.2.1
    rw [← hlog, hbs] at hbs2
    have hb : bs = bs2 := List.append_cancel_left hbs2
    have : s' = s2 := state_eq hrel (by rw [hdat, hdat2, hb])
    rw [this]
    exact hret2

/-- Witness for C7: the demo frame read into a buffer that held 7s and into
one that held 1, 2, 3, 4, 5 gives the same outcome. -/
theorem C7_buffer_overwritten_witness :
    ∃ s', DHT11_Read demo_mock 100 (boot [7, 7, 7, 7, 7]) = Except.ok (1, s') ∧
      DHT11_Read demo_mock 100 { boot [7, 7, 7, 7, 7] with data := [1, 2, 3, 4, 5] } =
        Except.ok (1, s') := by
  obtain ⟨s', hret, _⟩ := read_returns demo_mock 100 (boot [7, 7, 7, 7, 7]) demo_pulses
    (by decide) (by decide) demo_fuel (demo_line _)
  exact ⟨s', hret,
    (C7_buffer_overwritten demo_mock 100 (boot [7, 7, 7, 7, 7]) [1, 2, 3, 4, 5] 1 s' rfl rfl hret).1⟩

/-! ## Termination -/

theorem Mono.le {f : Nat → Except Stuck State} (hf : Mono f) {F : Nat} {a : State}
    (h : f F = Except.ok a) : ∀ fuel, F ≤ fuel → f fuel = Except.ok a := by
  intro fuel hle
  induction fuel with
  | zero =>
    have : F = 0 := by omega
    subst this
    exact h
  | succ n ih =>
    by_cases hn : F ≤ n
    · exact hf n a (ih hn)
    · have : F = n + 1 := by omega
      subst this
      exact h

theorem mono_spin (hw : Mock) (site : Site) (lvl : Bool) (loc : Loc) :
    ∀ fuel s a, spin hw site lvl loc fuel s = Except.ok a →
      spin hw site lvl loc (fuel + 1) s = Except.ok a := by
  intro fuel
  induction fuel with
  | zero => intro s a h; simp [spin] at h
  | succ n ih =>
    intro s a h
    unfold spin at h ⊢
    split
    · rename_i hl
      rw [if_pos hl] at h
      exact ih _ a h
    · rename_i hl
      rw [if_neg hl] at h
      exact h

theorem mono_bind {f : Nat → Except Stuck State} {g : Nat → State → Except Stuck State}
    (hf : Mono f) (hg : ∀ a, Mono (fun n => g n a)) : Mono (fun n => f n >>= g n) := by
  intro fuel b h
  obtain ⟨a, h1, h2⟩ := bind_eq_ok.1 h
  exact bind_eq_ok.2 ⟨a, hf fuel a h1, hg a fuel b h2⟩

theorem mono_sample_bit (hw : Mock) (j i : Nat) (s : State) :
    Mono (fun n => sample_bit hw n j i s) := by
  unfold sample_bit
  apply mono_bind
  · intro fuel a h
    simp only [wait_while_low_eq] at h ⊢
    exact mono_spin hw _ _ _ fuel s a h
  · intro s1
    apply mono_bind (f := fun _ => delay_us_call 40 s1)
    · intro fuel a h
      exact h
    · intro s2 fuel a h
      simp only [wait_while_high_eq] at h ⊢
      exact mono_spin hw _ _ _ fuel _ a h

theorem mono_foldlM {ι : Type} (f : Nat → State → ι → Except Stuck State)
    (hf : ∀ x s, Mono (fun n => f n s x)) :
    ∀ (l : List ι) (s : State), Mono (fun n => l.foldlM (f n) s) := by
  intro l
  induction l with
  | nil => intro s fuel a h; exact h
  | cons x xs ih =>
    intro s
    simp only [List.foldlM_cons]
    exact mono_bind (hf x s) (fun a => ih a)

theorem mono_sample_loop (hw : Mock) (s : State) : Mono (fun n => sample_loop hw n s) := by
  unfold sample_loop
  apply mono_foldlM (fun n st j => read_byte hw n j st)
  intro j st
  unfold read_byte bit_loop
  exact mono_foldlM (fun n st i => sample_bit hw n j i st) (fun i st => mono_sample_bit hw j i st) _ _

theorem dich_spin (hw : Mock) (site : Site) (lvl : Bool) (loc : Loc) (s : State)
    (hsite : site ≠ Site.sample) (hm : s.mode = PinMode.input_nopull)
    (hloc : (∀ k, hw.line (s.now + k) = lvl) → NeverChanges hw loc s.now) :
    Dich hw (fun n => spin hw site lvl loc n s) := by
  by_cases h : ∃ k, hw.line (s.now + k) = !lvl
  · obtain ⟨k, hk⟩ := h
    obtain ⟨a, ha⟩ := spin_term hw site lvl loc (k + 1) s k hm (by omega) hk
    obtain ⟨_, _, _, _, _, _, _, hmode, _⟩ := spin_ok hw site lvl loc hsite (k + 1) s a hm ha
    exact Or.inl ⟨k + 1, a, ha, hmode.trans hm⟩
  · have hall : ∀ k, hw.line (s.now + k) = lvl := by
      intro k
      by_contra hne
      apply h
      refine ⟨k, ?_⟩
      cases hx : hw.line (s.now + k) <;> cases lvl <;> simp_all
    refine Or.inr ⟨loc, s.now, 0, hloc hall, ?_⟩
    intro fuel _
    obtain ⟨st, hst⟩ := spin_stuck hw site lvl loc fuel s hm (fun m _ => hall m)
    obtain ⟨_, _, hnow, _⟩ := spin_error hw site lvl loc hsite fuel s _ hm hst
    exact ⟨st, hst, hnow⟩

theorem dich_bind (hw : Mock) {f : Nat → Except Stuck State}
    {g : Nat → State → Except Stuck State} (hf : Mono f) (hg : ∀ a, Mono (fun n => g n a))
    (df : Dich hw f) (dg : ∀ a, a.mode = PinMode.input_nopull → Dich hw (fun n => g n a)) :
    Dich hw (fun n => f n >>= g n) := by
  rcases df with ⟨F, a, ha, hm⟩ | ⟨loc, t, F, hn, herr⟩
  · rcases dg a hm with ⟨F2, b, hb, hmb⟩ | ⟨loc, t, F2, hn, herr⟩
    · refine Or.inl ⟨max F F2, b, ?_, hmb⟩
      simp only
      rw [hf.le ha _ (Nat.le_max_left _ _)]
      exact (hg a).le hb _ (Nat.le_max_right _ _)
    · refine Or.inr ⟨loc, t, max F F2, hn, ?_⟩
      intro fuel hfuel
      obtain ⟨st, hst, hnow⟩ := herr fuel (by omega)
      refine ⟨st, ?_, hnow⟩
      simp only
      rw [hf.le ha _ (by omega)]
      exact hst
  · refine Or.inr ⟨loc, t, F, hn, ?_⟩
    intro fuel hfuel
    obtain ⟨st, hst, hnow⟩ := herr fuel hfuel
    refine ⟨st, ?_, hnow⟩
    simp only
    rw [hst]
    rfl

theorem dich_sample_bit (hw : Mock) (j i : Nat) (hj : j < 5) (hi : i < 8) (s : State)
    (hm : s.mode = PinMode.input_nopull) : Dich hw (fun n => sample_bit hw n j i s) := by
  unfold sample_bit
  apply dich_bind hw
  · intro fuel a h
    simp only [wait_while_low_eq] at h ⊢
    exact mono_spin hw _ _ _ fuel s a h
  · intro s1
    apply mono_bind (f := fun _ => delay_us_call 40 s1)
    · intro fuel a h
      exact h
    · intro s2 fuel a h
      simp only [wait_while_high_eq] at h ⊢
      exact mono_spin hw _ _ _ fuel _ a h
  · simp only [wait_while_low_eq]
    exact dich_spin hw _ _ _ s (by decide) hm (fun h => ⟨hj, hi, h⟩)
  · intro s1 hm1
    rw [delay_us_call_eq 40 (by omega)]
    simp only [ok_bind, wait_while_high_eq]
    apply dich_spin hw _ _ _ _ (by decide)
    · split
      · exact hm1
      · exact hm1
    · intro h
      exact ⟨hj, hi, h⟩

theorem dich_foldlM (hw : Mock) {ι : Type} (f : Nat → State → ι → Except Stuck State)
    (hmono : ∀ x s, Mono (fun n => f n s x)) :
    ∀ (l : List ι), (∀ x ∈ l, ∀ s, s.mode = PinMode.input_nopull → Dich hw (fun n => f n s x)) →
      ∀ s, s.mode = PinMode.input_nopull → Dich hw (fun n => l.foldlM (f n) s) := by
  intro l
  induction l with
  | nil =>
    intro _ s hm
    exact Or.inl ⟨0, s, rfl, hm⟩
  | cons x xs ih =>
    intro h s hm
    simp only [List.foldlM_cons]
    apply dich_bind hw (hmono x s) (fun a => mono_foldlM f hmono xs a)
      (h x (List.mem_cons_self _ _) s hm)
    intro a ha
    exact ih (fun y hy => h y (List.mem_cons_of_mem _ hy)) a ha

theorem dich_sample_loop (hw : Mock) (s : State) (hm : s.mode = PinMode.input_nopull) :
    Dich hw (fun n => sample_loop hw n s) := by
  unfold sample_loop
  apply dich_foldlM hw (fun n st j => read_byte hw n j st) _ _ _ s hm
  · intro j st
    unfold read_byte bit_loop
    exact mono_foldlM (fun n st i => sample_bit hw n j i st)
      (fun i st => mono_sample_bit hw j i st) _ _
  · intro j hj st hst
    show Dich hw (fun n =>
      (List.range 8).foldlM (fun st i => sample_bit hw n j i st) (clear_byte j st))
    exact dich_foldlM hw (fun n st i => sample_bit hw n j i st)
      (fun i st => mono_sample_bit hw j i st) (List.range 8)
      (fun i hi st2 hst2 =>
        dich_sample_bit hw j i (List.mem_range.1 hj) (List.mem_range.1 hi) st2 hst2)
      (clear_byte j st) hst

theorem spin_stuck_read (fuel : Nat) :
    ∃ st, DHT11_Read { line := fun _ => false, hal_extra := 0 } fuel (boot [7, 7, 7, 7, 7]) =
      Except.error (Loc.wait_low 0 0, st) ∧ st.mem = MemOp.assign 0 0 :: [] := by
  have hm : (clear_byte 0 (started { line := fun _ => false, hal_extra := 0 }
      (boot [7, 7, 7, 7, 7]))).mode = PinMode.input_nopull := rfl
  obtain ⟨st, hst⟩ := spin_stuck { line := fun _ => false, hal_extra := 0 } Site.wait_low false
    (Loc.wait_low 0 0) fuel _ hm (fun _ _ => rfl)
  obtain ⟨_, _, _, _, hmem, _⟩ :=
    spin_error _ Site.wait_low false (Loc.wait_low 0 0) (by decide) fuel _ _ hm hst
  refine ⟨st, ?_, hmem⟩
  rw [DHT11_Read_eq, sample_loop_flat, prog_head, List.foldlM_cons]
  simp only [step, ok_bind]
  rw [List.foldlM_cons]
  simp only [step, sample_bit]
  rw [wait_while_low_eq, hst]
  rfl

/-- C4. Whenever `DHT11_Read` returns it returns the constant 1, whatever the line did, and exactly
40 samples were taken by then.  Conversely it does return unless one of the 40 wait-while-low or
40 wait-while-high spins, at the tick the run enters it, never sees the level change: either from
some fuel on the run returns 1, or it never returns and from some fuel on is out of fuel in one
and the same such spin. -/
theorem C4_returns_constant_one (hw : Mock) (s : State) :
    (∀ fuel r s', DHT11_Read hw fuel s = Except.ok (r, s') →
      r = 1 ∧ ∃ bs, bs.length = 40 ∧ samples s'.log = samples s.log ++ bs) ∧
    ((∃ F s', ∀ fuel, F ≤ fuel → DHT11_Read hw fuel s = Except.ok (1, s')) ∨
     ((∀ fuel r s', DHT11_Read hw fuel s ≠ Except.ok (r, s')) ∧
      ∃ loc t F, NeverChanges hw loc t ∧
        ∀ fuel, F ≤ fuel →
          ∃ st, DHT11_Read hw fuel s = Except.error (loc, st) ∧ st.now = t + fuel)) := by
  constructor
  · intro fuel r s' hret
    obtain ⟨hr, hloop⟩ := (DHT11_Read_ok hw fuel s r s').1 hret
    rw [sample_loop_flat] at hloop
    obtain ⟨tb, _, htb, _, hs, _⟩ := run_samples hw fuel prog (started hw s) s' rfl hloop
    rw [nbits_prog] at htb
    rw [samples_started] at hs
    exact ⟨hr, tb, htb, hs⟩
  · rcases dich_sample_loop hw (started hw s) rfl with ⟨F, a, ha, _⟩ | ⟨loc, t, F, hn, herr⟩
    · refine Or.inl ⟨F, a, ?_⟩
      intro fuel hfuel
      exact (DHT11_Read_ok hw fuel s 1 a).2 ⟨rfl, (mono_sample_loop hw (started hw s)).le ha fuel hfuel⟩
    · refine Or.inr ⟨?_, loc, t, F, hn, ?_⟩
      · intro fuel r s' hret
        obtain ⟨_, hloop⟩ := (DHT11_Read_ok hw fuel s r s').1 hret
        have h1 := (mono_sample_loop hw (started hw s)).le hloop (max fuel F) (Nat.le_max_left _ _)
        obtain ⟨st, hst, _⟩ := herr (max fuel F) (Nat.le_max_right _ _)
        simp only [h1] at hst
        cases hst
      · intro fuel hfuel
        obtain ⟨st, hst, hnow⟩ := herr fuel hfuel
        simp only at hst
        refine ⟨st, ?_, hnow⟩
        rw [DHT11_Read_eq, hst]
        rfl

/-- Witness for C4: on the demo frame the run returns 1 after 40 samples; on a
line tied low it is the second alternative that holds. -/
theorem C4_returns_constant_one_witness :
    (∃ s', DHT11_Read demo_mock 100 (boot [7, 7, 7, 7, 7]) = Except.ok (1, s') ∧
      ∃ bs, bs.length = 40 ∧ samples s'.log = bs) ∧
    (∃ loc t F, NeverChanges { line := fun _ => false, hal_extra := 0 } loc t ∧
      ∀ fuel, F ≤ fuel →
        ∃ st, DHT11_Read { line := fun _ => false, hal_extra := 0 } fuel (boot [7, 7, 7, 7, 7]) =
          Except.error (loc, st) ∧ st.now = t + fuel) := by
  constructor
  · obtain ⟨s', hret, _⟩ := read_returns demo_mock 100 (boot [7, 7, 7, 7, 7]) demo_pulses
      (by decide) (by decide) demo_fuel (demo_line _)
    obtain ⟨_, bs, hb, hs⟩ :=
      (C4_returns_constant_one demo_mock (boot [7, 7, 7, 7, 7])).1 100 1 s' hret
    exact ⟨s', hret, bs, hb, by simpa [boot, samples] using hs⟩
  · rcases (C4_returns_constant_one { line := fun _ => false, hal_extra := 0 }
      (boot [7, 7, 7, 7, 7])).2 with ⟨F, s', h⟩ | ⟨_, h⟩
    · exfalso
      have h1 := h F (Nat.le_refl _)
      obtain ⟨st, h2, _⟩ := spin_stuck_read F
      rw [h1] at h2
      cases h2
    · exact h

/-! ## The model run on the demo frame -/

set_option maxRecDepth 100000 in
/-- Evaluation of the embedding itself on the demo frame: the run returns 1 at
tick 21583 with the five bytes in the buffer and the pin an input, as the
theorems above say. -/
theorem demo_run_eval :
    (DHT11_Read demo_mock 100 (boot [7, 7, 7, 7, 7])).toOption.map
        (fun r => (r.1, r.2.data, r.2.now, r.2.mode)) =
      some (1, [55, 0, 24, 0, 99], 21583, PinMode.input_nopull) := by
  decide!

end DHT11
